import Mathlib

/-
Verification of the reactive dataflow node engine of the kurt-archive
repository.

The development shallowly embeds three parts of the source:

1. `ValueNode` (src/components/zen-garden/nodes/ValueNode.ts): a
   BehaviorSubject with a zod schema checked on every write through the
   `value` setter (`this.next(this.schema.parse(v))`).  The subject is
   modelled as a state machine over a trace of write / subscribe /
   unsubscribe operations; `schema.parse` is modelled as a function
   `T → Except E T` (zod's parse either returns the parsed value or
   throws), and a synchronous throw of the setter is modelled as the
   `Option E` component of a step result.

2. `buildGraph` / `computeDepth`
   (src/pages/zen-garden-v2/zen-garden/node-graph-viewer/graph.ts):
   nodes are identified by natural numbers (object identity), and each
   node's `debugInputs` map is a list of (input name, producer) pairs
   where the producer is `some m` when `isReactiveNode` holds of it and
   `none` otherwise.  The two recursive passes of the source terminate
   only on acyclic graphs; the embedding makes the recursion explicit
   with a fuel parameter, and the theorems hypothesise a rank function
   witnessing acyclicity together with enough fuel.

3. `ReactiveNode` (src/pages/zen-garden-v2/zen-garden/nodes/node.ts):
   the pipeline `combineLatest(inputs).pipe(switchMap(...), shareReplay(1))`
   is modelled as a single-threaded event machine (the concurrency model
   of the engine is an event loop, so a run is a serialized trace of
   input emissions, asynchronous inner results, and subscriber
   operations).  `process` is a function of the combined snapshot whose
   result is either a plain value (`of`), an asynchronous result (a
   promise via `from`, or a nested observable) whose emissions arrive
   later in the trace tagged with the generation (process-invocation
   index) that started them, or a synchronous throw.  switchMap's
   cancellation is the guard that an inner event is delivered only when
   its generation is the current one; shareReplay(1) is the single
   shared buffer with replay to late subscribers, which (per rxjs 7,
   `resetOnError: true`) resets its state when the source errors, so a
   later subscriber re-connects the source instead of receiving the
   buffered error.  Console logging of the source is omitted (it does
   not affect emissions).
-/

namespace ZenGarden

/-! ## ValueNode: schema-validated BehaviorSubject -/

/-- Model of a zod schema `z.ZodType T`: `parse` either returns the
parsed value or signals a validation error (zod throws a `ZodError`). -/
structure Schema (T E : Type) where
  parse : T → Except E T

/-- State of a `ValueNode` (a BehaviorSubject): the current value and the
list of active subscriber ids. -/
structure VState (T : Type) where
  value : T
  subs : List Nat
deriving DecidableEq

/-- A delivery of a value to one subscriber. -/
inductive VMsg (T : Type) where
  | next : Nat → T → VMsg T
deriving DecidableEq

/-- Operations on a `ValueNode`: the `value` setter, and the
BehaviorSubject subscribe / unsubscribe calls. -/
inductive VOp (T : Type) where
  | write : T → VOp T
  | subscribe : Nat → VOp T
  | unsubscribe : Nat → VOp T
deriving DecidableEq

/-- One step of a `ValueNode`.  The `value` setter runs
`this.next(this.schema.parse(v))`: parse is evaluated first, and when it
fails the error propagates to the caller (third component) before `next`
runs, so the subject is untouched.  On success `next` stores the parsed
value and delivers it to every active subscriber.  Subscribing delivers
the current value immediately (BehaviorSubject); unsubscribing removes
the subscriber. -/
def VState.step {T E : Type} (sc : Schema T E) (st : VState T) :
    VOp T → VState T × List (VMsg T) × Option E
  | .write v =>
    match sc.parse v with
    | .ok w => (⟨w, st.subs⟩, st.subs.map (fun s => .next s w), none)
    | .error e => (st, [], some e)
  | .subscribe s => (⟨st.value, st.subs ++ [s]⟩, [.next s st.value], none)
  | .unsubscribe s => (⟨st.value, st.subs.erase s⟩, [], none)

/-- Run a trace of operations, collecting all deliveries in order. -/
def VState.run {T E : Type} (sc : Schema T E) (st : VState T) :
    List (VOp T) → VState T × List (VMsg T)
  | [] => (st, [])
  | op :: ops =>
    let p := st.step sc op
    let q := p.1.run sc ops
    (q.1, p.2.1 ++ q.2)

/-- The deliveries a given subscriber receives, in order. -/
def msgsTo {T : Type} (s : Nat) : List (VMsg T) → List T
  | [] => []
  | .next r v :: ms => if r = s then v :: msgsTo s ms else msgsTo s ms

/-- The values successfully written by a trace, in order (writes that
fail validation are dropped; successful writes store the parse result). -/
def goodWrites {T E : Type} (sc : Schema T E) : List (VOp T) → List T
  | [] => []
  | .write v :: ops =>
    match sc.parse v with
    | .ok w => w :: goodWrites sc ops
    | .error _ => goodWrites sc ops
  | .subscribe _ :: ops => goodWrites sc ops
  | .unsubscribe _ :: ops => goodWrites sc ops

/-- The tileSize schema of plain.ts, `z.int().min(1).max(10)`: a pure
validator that returns the value itself on success. -/
def tileSizeSchema : Schema Int String :=
  ⟨fun v => if 1 ≤ v ∧ v ≤ 10 then .ok v else .error "invalid tileSize"⟩

theorem msgsTo_append {T : Type} (s : Nat) (l₁ l₂ : List (VMsg T)) :
    msgsTo s (l₁ ++ l₂) = msgsTo s l₁ ++ msgsTo s l₂ := by
  induction l₁ with
  | nil => rfl
  | cons m ms ih =>
    cases m with
    | next r v =>
      simp only [List.cons_append, msgsTo]
      by_cases h : r = s <;> simp [h, ih]

theorem msgsTo_map_next {T : Type} (s : Nat) (w : T) (l : List Nat) :
    msgsTo s (l.map (fun r => VMsg.next r w)) = List.replicate (l.count s) w := by
  induction l with
  | nil => rfl
  | cons r rs ih =>
    simp only [List.map_cons, msgsTo, List.count_cons]
    by_cases h : r = s
    · simp [h, ih, List.replicate_succ]
    · simp [h, ih, Ne.symm h]

theorem flatMap_replicate_one {T : Type} (l : List T) :
    (l.flatMap fun w => List.replicate 1 w) = l := by
  induction l with
  | nil => rfl
  | cons w ws ih => simp [List.flatMap_cons, ih]

theorem flatMap_replicate_zero {T : Type} (l : List T) :
    (l.flatMap fun w => List.replicate 0 w) = ([] : List T) := by
  induction l with
  | nil => rfl
  | cons w ws ih => simp [List.flatMap_cons, ih]

/-- Deliveries to one subscriber over a whole run: as long as the trace
neither subscribes nor unsubscribes `s`, each successful write delivers
its stored value once per active registration of `s`, in write order. -/
theorem run_msgsTo {T E : Type} (sc : Schema T E) (s : Nat) :
    ∀ (ops : List (VOp T)) (st : VState T),
      (∀ op ∈ ops, op ≠ VOp.subscribe s ∧ op ≠ VOp.unsubscribe s) →
      msgsTo s (st.run sc ops).2 =
        (goodWrites sc ops).flatMap (fun w => List.replicate (st.subs.count s) w) := by
  intro ops
  induction ops with
  | nil => intro st _; rfl
  | cons op ops ih =>
    intro st hops
    have hop := hops op (List.mem_cons_self op ops)
    have hrest : ∀ op ∈ ops, op ≠ VOp.subscribe s ∧ op ≠ VOp.unsubscribe s :=
      fun o ho => hops o (List.mem_cons_of_mem op ho)
    cases op with
    | write v =>
      cases h : sc.parse v with
      | ok w =>
        simp only [VState.run, VState.step, h, goodWrites, msgsTo_append,
          msgsTo_map_next, List.flatMap_cons]
        rw [ih ⟨w, st.subs⟩ hrest]
      | error e =>
        simp only [VState.run, VState.step, h, goodWrites]
        simpa using ih st hrest
    | subscribe r =>
      have hr : r ≠ s := by
        intro hrs; exact hop.1 (by rw [hrs])
      simp only [VState.run, VState.step, goodWrites]
      have : msgsTo s ([VMsg.next r st.value] : List (VMsg T)) = [] := by
        simp [msgsTo, hr]
      rw [msgsTo_append, this]
      have hcount : (st.subs ++ [r]).count s = st.subs.count s := by
        simp [List.count_append, List.count_singleton, hr]
      rw [List.nil_append, ih ⟨st.value, st.subs ++ [r]⟩ hrest]
      simp [hcount]
    | unsubscribe r =>
      have hr : r ≠ s := by
        intro hrs; exact hop.2 (by rw [hrs])
      simp only [VState.run, VState.step, goodWrites]
      have hcount : (st.subs.erase r).count s = st.subs.count s :=
        List.count_erase_of_ne (Ne.symm hr) st.subs
      rw [List.nil_append, ih ⟨st.value, st.subs.erase r⟩ hrest]
      simp [hcount]

/-- C9: a ValueNode subscriber receives the current value immediately
upon subscribing; while subscribed (registered once) it then receives
the value of every subsequent successful write, in write order; once it
is not registered (after unsubscribing) it receives nothing further. -/
theorem valueNode_subscriber_delivery {T E : Type} (sc : Schema T E) (st : VState T) (s : Nat)
    (ops : List (VOp T))
    (hops : ∀ op ∈ ops, op ≠ VOp.subscribe s ∧ op ≠ VOp.unsubscribe s) :
    (st.step sc (.subscribe s)).2.1 = [.next s st.value] ∧
    (st.subs.count s = 1 → msgsTo s (st.run sc ops).2 = goodWrites sc ops) ∧
    (st.subs.count s = 0 → msgsTo s (st.run sc ops).2 = []) := by
  refine ⟨rfl, ?_, ?_⟩
  · intro h1
    rw [run_msgsTo sc s ops st hops, h1, flatMap_replicate_one]
  · intro h0
    rw [run_msgsTo sc s ops st hops, h0, flatMap_replicate_zero]

theorem valueNode_subscriber_delivery_witness :
    ((VState.mk (3 : Int) []).step tileSizeSchema (.subscribe 5)).2.1 = [.next 5 3] ∧
    msgsTo 5 ((VState.mk (3 : Int) [5]).run tileSizeSchema
        [.write 4, .write 20, .write 7]).2 = goodWrites tileSizeSchema [.write 4, .write 20, .write 7] ∧
    goodWrites tileSizeSchema [.write 4, .write 20, .write 7] = [4, 7] ∧
    msgsTo 5 ((VState.mk (3 : Int) []).run tileSizeSchema
        [.write 4, .write 20, .write 7]).2 = [] :=
  ⟨(valueNode_subscriber_delivery tileSizeSchema ⟨3, []⟩ 5 [] (by decide)).1,
   (valueNode_subscriber_delivery tileSizeSchema ⟨3, [5]⟩ 5
      [.write 4, .write 20, .write 7] (by decide)).2.1 (by decide),
   by decide,
   (valueNode_subscriber_delivery tileSizeSchema ⟨3, []⟩ 5
      [.write 4, .write 20, .write 7] (by decide)).2.2 (by decide)⟩

/-- C3: a ValueNode write that fails schema validation leaves the stored
value (and the whole subject state) unchanged, emits nothing to
subscribers, and signals the caller with the validation error; a write
that passes validation (zod parse returns the value) stores it and emits
it to every active subscriber.  The step is a single atomic transition,
never partially applied. -/
theorem valueNode_write_validated {T E : Type} (sc : Schema T E) (st : VState T) (v : T) :
    (∀ e, sc.parse v = .error e → st.step sc (.write v) = (st, [], some e)) ∧
    (sc.parse v = .ok v →
      st.step sc (.write v) = (⟨v, st.subs⟩, st.subs.map (fun s => .next s v), none)) := by
  constructor
  · intro e he
    simp [VState.step, he]
  · intro h
    simp [VState.step, h]

theorem valueNode_write_validated_witness :
    (VState.mk (3 : Int) [7]).step tileSizeSchema (.write (-1)) =
      (⟨3, [7]⟩, [], some "invalid tileSize") ∧
    (VState.mk (3 : Int) [7]).step tileSizeSchema (.write 5) =
      (⟨5, [7]⟩, [.next 7 5], none) :=
  ⟨(valueNode_write_validated tileSizeSchema ⟨3, [7]⟩ (-1)).1 _ rfl,
   by
    have h := (valueNode_write_validated tileSizeSchema ⟨3, [7]⟩ 5).2 rfl
    simpa using h⟩

/-! ## Dependency graph builder (graph.ts) -/

/-- The live node references the builder walks.  A node is identified by
a natural number (object identity); `inputs n` is the entry list of
`n.debugInputs` in insertion order, where the producer component is
`some m` when `isReactiveNode` holds of the input observable and `none`
otherwise; `name n` is `n.constructor.name`. -/
structure NodeUniverse where
  name : Nat → String
  inputs : Nat → List (String × Option Nat)

/-- An edge of the introspectable graph: `p` is a producer of `n` that is
itself a ReactiveNode. -/
def NodeUniverse.Edge (U : NodeUniverse) (n p : Nat) : Prop :=
  ∃ s, (s, some p) ∈ U.inputs n

/-- `p` is transitively reachable from `n` through declared inputs. -/
def NodeUniverse.Reach (U : NodeUniverse) : Nat → Nat → Prop :=
  Relation.ReflTransGen U.Edge

/-- A path of length `k` from `n` down to `p` along reactive-input edges. -/
inductive NodeUniverse.PathLen (U : NodeUniverse) : Nat → Nat → Nat → Prop
  | refl (n : Nat) : U.PathLen n n 0
  | tail {n m p : Nat} {k : Nat} : U.PathLen n m k → U.Edge m p → U.PathLen n p (k + 1)

/-- A rank function witnessing that the graph of reactive inputs is
acyclic: it strictly decreases along every edge.  The source recursion
terminates exactly on such graphs (cycles would overflow the stack, a
caller error per the spec). -/
def Acyclic (U : NodeUniverse) (rank : Nat → Nat) : Prop :=
  ∀ n s p, (s, some p) ∈ U.inputs n → rank p < rank n

mutual
/-- First pass of `buildGraph`: the memoized depth-first `traverse`.  The
visited map of the source is modelled by the visitation-order list `vis`
(ids `node-0`, `node-1`, ... are assigned in this order); a node already
present is returned without revisiting, otherwise it is inserted and its
reactive inputs are traversed in declared order.  `fuel` makes the
recursion structurally terminating; theorems supply enough fuel for the
acyclic graphs on which the source terminates. -/
def traverseNode (U : NodeUniverse) (fuel : Nat) (n : Nat) (vis : List Nat) : List Nat :=
  match fuel with
  | 0 => vis
  | fuel' + 1 =>
    if n ∈ vis then vis
    else traverseInputs U fuel' (U.inputs n) (vis ++ [n])
termination_by (fuel, 0)

/-- Walk one node's input list: reactive inputs (`some m`) are traversed,
non-ReactiveNode inputs (`none`) are recorded as null and not traversed. -/
def traverseInputs (U : NodeUniverse) (fuel : Nat) (l : List (String × Option Nat))
    (vis : List Nat) : List Nat :=
  match l with
  | [] => vis
  | (_, none) :: rest => traverseInputs U fuel rest vis
  | (_, some m) :: rest => traverseInputs U fuel rest (traverseNode U fuel m vis)
termination_by (fuel, l.length + 1)
end

/-- The first pass over all sink nodes, starting from an empty visited map. -/
def visitOrder (U : NodeUniverse) (fuel : Nat) (sinks : List Nat) : List Nat :=
  sinks.foldl (fun vis s => traverseNode U fuel s vis) []

/-- Functional update of the depth map (`info.depth = depth`). -/
def depthUpdate (d : Nat → Nat) (n v : Nat) : Nat → Nat :=
  fun m => if m = n then v else d m

mutual
/-- Second pass of `buildGraph`: `computeDepth(info, depth)` raises
`info.depth` to `depth` when larger, then recurses into every reactive
input with the node's current depth plus one. -/
def computeDepth (U : NodeUniverse) (fuel : Nat) (n : Nat) (dep : Nat)
    (d : Nat → Nat) : Nat → Nat :=
  match fuel with
  | 0 => d
  | fuel' + 1 =>
    let d1 := if dep > d n then depthUpdate d n dep else d
    computeDepthInputs U fuel' n (U.inputs n) d1
termination_by (fuel, 0)

/-- `info.inputs.forEach(inputInfo => { if (inputInfo) computeDepth(inputInfo, info.depth + 1) })`:
the parent's depth is re-read from the current map at each input. -/
def computeDepthInputs (U : NodeUniverse) (fuel : Nat) (n : Nat)
    (l : List (String × Option Nat)) (d : Nat → Nat) : Nat → Nat :=
  match l with
  | [] => d
  | (_, none) :: rest => computeDepthInputs U fuel n rest d
  | (_, some m) :: rest =>
    computeDepthInputs U fuel n rest (computeDepth U fuel m (d n + 1) d)
termination_by (fuel, l.length + 1)
end

/-- The second pass seeded at depth 0 for every sink, over the
all-zeroes depth map the first pass created the NodeInfos with. -/
def depthMap (U : NodeUniverse) (fuel : Nat) (sinks : List Nat) : Nat → Nat :=
  sinks.foldl (fun d s => computeDepth U fuel s 0 d) (fun _ => 0)

/-- The graph-builder output for one node: generated id (`node-<id>`),
constructor name, a back-reference to the node, the input-name map with
`none` for non-ReactiveNode producers, and the computed depth. -/
structure NodeInfo where
  id : Nat
  name : String
  node : Nat
  inputs : List (String × Option Nat)
  depth : Nat
deriving DecidableEq

/-- `buildGraph`: run the traversal over the sinks, compute depths, and
return one NodeInfo per visited node, keyed by the generated id (here:
the position in visitation order, which is exactly the id counter). -/
def buildGraph (U : NodeUniverse) (fuel : Nat) (sinks : List Nat) : List NodeInfo :=
  let order := visitOrder U fuel sinks
  let d := depthMap U fuel sinks
  order.enum.map (fun p => ⟨p.1, U.name p.2, p.2, U.inputs p.2, d p.2⟩)

theorem edge_rank {U : NodeUniverse} {rank : Nat → Nat} (hA : Acyclic U rank)
    {n p : Nat} (h : U.Edge n p) : rank p < rank n := by
  obtain ⟨s, hs⟩ := h
  exact hA n s p hs

theorem pathLen_rank {U : NodeUniverse} {rank : Nat → Nat} (hA : Acyclic U rank)
    {n m k : Nat} (h : U.PathLen n m k) : k + rank m ≤ rank n := by
  induction h with
  | refl => omega
  | tail hp e ih =>
    have := edge_rank hA e
    omega

theorem pathLen_le_rank {U : NodeUniverse} {rank : Nat → Nat} (hA : Acyclic U rank)
    {n m k : Nat} (h : U.PathLen n m k) : k ≤ rank n := by
  have := pathLen_rank hA h
  omega

theorem reach_iff_pathLen {U : NodeUniverse} {n m : Nat} :
    U.Reach n m ↔ ∃ k, U.PathLen n m k := by
  constructor
  · intro h
    induction h with
    | refl => exact ⟨0, .refl n⟩
    | tail _ e ih =>
      obtain ⟨k, hk⟩ := ih
      exact ⟨k + 1, .tail hk e⟩
  · rintro ⟨k, hk⟩
    induction hk with
    | refl => exact Relation.ReflTransGen.refl
    | tail _ e ih => exact Relation.ReflTransGen.tail ih e

theorem pathLen_zero {U : NodeUniverse} {n m : Nat} (h : U.PathLen n m 0) : m = n := by
  cases h
  rfl

theorem pathLen_head {U : NodeUniverse} :
    ∀ {n m k : Nat}, U.PathLen n m k → 0 < k →
      ∃ c, U.Edge n c ∧ U.PathLen c m (k - 1) := by
  intro n m k h
  induction h with
  | refl => intro h0; exact absurd h0 (lt_irrefl 0)
  | @tail m' p' k' hp e ih =>
    intro _
    cases k' with
    | zero =>
      have hm : m' = n := pathLen_zero hp
      subst hm
      exact ⟨p', e, .refl p'⟩
    | succ j =>
      obtain ⟨c, hc, hcp⟩ := ih (Nat.succ_pos j)
      refine ⟨c, hc, ?_⟩
      have : U.PathLen c m' j := by simpa using hcp
      simpa using NodeUniverse.PathLen.tail this e

/-- Every node already in the visited map has all its reactive inputs in
the map too, except for nodes still on the traversal stack. -/
def ClosedExcept (U : NodeUniverse) (vis stack : List Nat) : Prop :=
  ∀ n ∈ vis, n ∉ stack → ∀ s p, (s, some p) ∈ U.inputs n → p ∈ vis

theorem closed_reach_mem {U : NodeUniverse} {vis : List Nat}
    (hc : ClosedExcept U vis []) :
    ∀ {n m : Nat}, U.Reach n m → n ∈ vis → m ∈ vis := by
  intro n m h
  induction h using Relation.ReflTransGen.head_induction_on with
  | refl => exact fun h => h
  | head e _ ih =>
    intro hn
    rename_i a c _
    obtain ⟨s, hs⟩ := e
    exact ih (hc a hn (List.not_mem_nil a) s c hs)

theorem traverse_append (U : NodeUniverse) :
    ∀ fuel : Nat,
      (∀ n vis, ∃ ext, traverseNode U fuel n vis = vis ++ ext) ∧
      (∀ l vis, ∃ ext, traverseInputs U fuel l vis = vis ++ ext) := by
  intro fuel
  induction fuel with
  | zero =>
    constructor
    · intro n vis
      exact ⟨[], by simp [traverseNode]⟩
    · intro l vis
      induction l generalizing vis with
      | nil => exact ⟨[], by simp [traverseInputs]⟩
      | cons hd rest ih =>
        obtain ⟨s, op⟩ := hd
        cases op with
        | none => simpa [traverseInputs] using ih vis
        | some m =>
          obtain ⟨e2, h2⟩ := ih vis
          exact ⟨e2, by simp [traverseInputs, traverseNode, h2]⟩
  | succ f ihf =>
    have hnode : ∀ n vis, ∃ ext, traverseNode U (f + 1) n vis = vis ++ ext := by
      intro n vis
      by_cases hmem : n ∈ vis
      · exact ⟨[], by simp [traverseNode, hmem]⟩
      · obtain ⟨e, he⟩ := ihf.2 (U.inputs n) (vis ++ [n])
        exact ⟨[n] ++ e, by simp [traverseNode, hmem, he]⟩
    refine ⟨hnode, ?_⟩
    intro l
    induction l with
    | nil => exact fun vis => ⟨[], by simp [traverseInputs]⟩
    | cons hd rest ih =>
      intro vis
      obtain ⟨s, op⟩ := hd
      cases op with
      | none => simpa [traverseInputs] using ih vis
      | some m =>
        obtain ⟨e1, h1⟩ := hnode m vis
        obtain ⟨e2, h2⟩ := ih (vis ++ e1)
        refine ⟨e1 ++ e2, ?_⟩
        simp only [traverseInputs]
        rw [h1, h2, List.append_assoc]

theorem traverse_nodup (U : NodeUniverse) :
    ∀ fuel : Nat,
      (∀ n vis, vis.Nodup → (traverseNode U fuel n vis).Nodup) ∧
      (∀ l vis, vis.Nodup → (traverseInputs U fuel l vis).Nodup) := by
  intro fuel
  induction fuel with
  | zero =>
    constructor
    · intro n vis h
      simpa [traverseNode] using h
    · intro l
      induction l with
      | nil => intro vis h; simpa [traverseInputs] using h
      | cons hd rest ih =>
        intro vis h
        obtain ⟨s, op⟩ := hd
        cases op with
        | none => simpa [traverseInputs] using ih vis h
        | some m => simpa [traverseInputs, traverseNode] using ih vis h
  | succ f ihf =>
    have hnode : ∀ n vis, vis.Nodup → (traverseNode U (f + 1) n vis).Nodup := by
      intro n vis h
      by_cases hmem : n ∈ vis
      · simpa [traverseNode, hmem] using h
      · have hv : (vis ++ [n]).Nodup := by
          simp [List.nodup_append, h, hmem]
        simpa [traverseNode, hmem] using ihf.2 (U.inputs n) (vis ++ [n]) hv
    refine ⟨hnode, ?_⟩
    intro l
    induction l with
    | nil => intro vis h; simpa [traverseInputs] using h
    | cons hd rest ih =>
      intro vis h
      obtain ⟨s, op⟩ := hd
      cases op with
      | none => simpa [traverseInputs] using ih vis h
      | some m =>
        have := ih (traverseNode U (f + 1) m vis) (hnode m vis h)
        simpa [traverseInputs] using this

theorem traverse_sound (U : NodeUniverse) :
    ∀ fuel : Nat,
      (∀ n vis m, m ∈ traverseNode U fuel n vis → m ∈ vis ∨ U.Reach n m) ∧
      (∀ l vis m, m ∈ traverseInputs U fuel l vis →
        m ∈ vis ∨ ∃ c, (∃ s, (s, some c) ∈ l) ∧ U.Reach c m) := by
  intro fuel
  induction fuel with
  | zero =>
    constructor
    · intro n vis m h
      left
      simpa [traverseNode] using h
    · intro l
      induction l with
      | nil => intro vis m h; left; simpa [traverseInputs] using h
      | cons hd rest ih =>
        intro vis m h
        obtain ⟨s, op⟩ := hd
        cases op with
        | none =>
          rcases ih vis m (by simpa [traverseInputs] using h) with h1 | ⟨c, ⟨s', hs⟩, hr⟩
          · exact Or.inl h1
          · exact Or.inr ⟨c, ⟨s', List.mem_cons_of_mem _ hs⟩, hr⟩
        | some m0 =>
          have h' : m ∈ traverseInputs U 0 rest (traverseNode U 0 m0 vis) := by
            simpa [traverseInputs] using h
          rcases ih (traverseNode U 0 m0 vis) m h' with h1 | ⟨c, ⟨s', hs⟩, hr⟩
          · left; simpa [traverseNode] using h1
          · exact Or.inr ⟨c, ⟨s', List.mem_cons_of_mem _ hs⟩, hr⟩
  | succ f ihf =>
    have hnode : ∀ n vis m, m ∈ traverseNode U (f + 1) n vis → m ∈ vis ∨ U.Reach n m := by
      intro n vis m h
      by_cases hmem : n ∈ vis
      · left; simpa [traverseNode, hmem] using h
      · have h' : m ∈ traverseInputs U f (U.inputs n) (vis ++ [n]) := by
          simpa [traverseNode, hmem] using h
        rcases ihf.2 (U.inputs n) (vis ++ [n]) m h' with h1 | ⟨c, ⟨s, hs⟩, hr⟩
        · rcases List.mem_append.mp h1 with h2 | h2
          · exact Or.inl h2
          · right
            have : m = n := by simpa using h2
            subst this
            exact Relation.ReflTransGen.refl
        · exact Or.inr (Relation.ReflTransGen.head ⟨s, hs⟩ hr)
    refine ⟨hnode, ?_⟩
    intro l
    induction l with
    | nil => intro vis m h; left; simpa [traverseInputs] using h
    | cons hd rest ih =>
      intro vis m h
      obtain ⟨s, op⟩ := hd
      cases op with
      | none =>
        rcases ih vis m (by simpa [traverseInputs] using h) with h1 | ⟨c, ⟨s', hs⟩, hr⟩
        · exact Or.inl h1
        · exact Or.inr ⟨c, ⟨s', List.mem_cons_of_mem _ hs⟩, hr⟩
      | some m0 =>
        have h' : m ∈ traverseInputs U (f + 1) rest (traverseNode U (f + 1) m0 vis) := by
          simpa [traverseInputs] using h
        rcases ih (traverseNode U (f + 1) m0 vis) m h' with h1 | ⟨c, ⟨s', hs⟩, hr⟩
        · rcases hnode m0 vis m h1 with h2 | h2
          · exact Or.inl h2
          · exact Or.inr ⟨m0, ⟨s, List.mem_cons_self _ _⟩, h2⟩
        · exact Or.inr ⟨c, ⟨s', List.mem_cons_of_mem _ hs⟩, hr⟩

theorem transGen_edge_rank {U : NodeUniverse} {rank : Nat → Nat} (hA : Acyclic U rank)
    {n m : Nat} (h : Relation.TransGen U.Edge n m) : rank m < rank n := by
  induction h with
  | single e => exact edge_rank hA e
  | tail _ e ih => exact lt_trans (edge_rank hA e) ih

theorem traverseInputs_zero (U : NodeUniverse) (l : List (String × Option Nat))
    (vis : List Nat) : traverseInputs U 0 l vis = vis := by
  induction l generalizing vis with
  | nil => simp [traverseInputs]
  | cons hd rest ih =>
    obtain ⟨s, op⟩ := hd
    cases op with
    | none => simpa [traverseInputs] using ih vis
    | some m => simpa [traverseInputs, traverseNode] using ih vis

theorem traverse_closed (U : NodeUniverse) (rank : Nat → Nat) (hA : Acyclic U rank) :
    ∀ fuel : Nat,
      (∀ n vis stack, rank n < fuel →
        ClosedExcept U vis stack →
        (∀ e ∈ stack, Relation.TransGen U.Edge e n) →
        ClosedExcept U (traverseNode U fuel n vis) stack ∧
          n ∈ traverseNode U fuel n vis) ∧
      (∀ n0 l vis stack,
        (∀ s c, (s, some c) ∈ l → U.Edge n0 c) →
        (∀ s c, (s, some c) ∈ l → rank c < fuel) →
        ClosedExcept U vis (n0 :: stack) →
        (∀ e ∈ stack, Relation.TransGen U.Edge e n0) →
        ClosedExcept U (traverseInputs U fuel l vis) (n0 :: stack) ∧
          (∀ s c, (s, some c) ∈ l → c ∈ traverseInputs U fuel l vis)) := by
  intro fuel
  induction fuel with
  | zero =>
    constructor
    · intro n vis stack hrank
      exact absurd hrank (Nat.not_lt_zero _)
    · intro n0 l vis stack hedge hrank hc hstack
      constructor
      · rw [traverseInputs_zero]
        exact hc
      · intro s c hmem
        exact absurd (hrank s c hmem) (Nat.not_lt_zero _)
  | succ f ihf =>
    have hnode : ∀ n vis stack, rank n < f + 1 →
        ClosedExcept U vis stack →
        (∀ e ∈ stack, Relation.TransGen U.Edge e n) →
        ClosedExcept U (traverseNode U (f + 1) n vis) stack ∧
          n ∈ traverseNode U (f + 1) n vis := by
      intro n vis stack hrank hc hstack
      by_cases hmem : n ∈ vis
      · constructor
        · simpa [traverseNode, hmem] using hc
        · simp [traverseNode, hmem]
      · have hc' : ClosedExcept U (vis ++ [n]) (n :: stack) := by
          intro a ha hstk s p hp
          rcases List.mem_append.mp ha with h1 | h1
          · have hastk : a ∉ stack := fun h => hstk (List.mem_cons_of_mem _ h)
            exact List.mem_append.mpr (Or.inl (hc a h1 hastk s p hp))
          · have : a = n := by simpa using h1
            exact absurd (this ▸ List.mem_cons_self n stack) hstk
        have hedge : ∀ s c, (s, some c) ∈ U.inputs n → U.Edge n c :=
          fun s c h => ⟨s, h⟩
        have hrankc : ∀ s c, (s, some c) ∈ U.inputs n → rank c < f := by
          intro s c h
          have := hA n s c h
          omega
        have hstack' : ∀ e ∈ stack, Relation.TransGen U.Edge e n := hstack
        obtain ⟨hcr, hchild⟩ := ihf.2 n (U.inputs n) (vis ++ [n]) stack hedge hrankc hc' hstack'
        have hmemn : n ∈ traverseInputs U f (U.inputs n) (vis ++ [n]) := by
          obtain ⟨ext, hext⟩ := (traverse_append U f).2 (U.inputs n) (vis ++ [n])
          rw [hext]
          exact List.mem_append.mpr (Or.inl (List.mem_append.mpr (Or.inr (List.mem_singleton.mpr rfl))))
        constructor
        · intro a ha hastk s p hp
          by_cases han : a = n
          · subst han
            have : traverseNode U (f + 1) a vis = traverseInputs U f (U.inputs a) (vis ++ [a]) := by
              simp [traverseNode, hmem]
            rw [this]
            exact hchild s p hp
          · have ha' : a ∈ traverseInputs U f (U.inputs n) (vis ++ [n]) := by
              simpa [traverseNode, hmem] using ha
            have hastk' : a ∉ n :: stack := by
              intro h
              rcases List.mem_cons.mp h with h1 | h1
              · exact han h1
              · exact hastk h1
            have := hcr a ha' hastk' s p hp
            simpa [traverseNode, hmem] using this
        · simpa [traverseNode, hmem] using hmemn
    refine ⟨hnode, ?_⟩
    intro n0 l
    induction l with
    | nil =>
      intro vis stack _ _ hc _
      constructor
      · simpa [traverseInputs] using hc
      · intro s c h
        exact absurd h (List.not_mem_nil _)
    | cons hd rest ih =>
      intro vis stack hedge hrank hc hstack
      obtain ⟨s0, op⟩ := hd
      cases op with
      | none =>
        have hedge' : ∀ s c, (s, some c) ∈ rest → U.Edge n0 c :=
          fun s c h => hedge s c (List.mem_cons_of_mem _ h)
        have hrank' : ∀ s c, (s, some c) ∈ rest → rank c < f + 1 :=
          fun s c h => hrank s c (List.mem_cons_of_mem _ h)
        obtain ⟨h1, h2⟩ := ih vis stack hedge' hrank' hc hstack
        constructor
        · simpa [traverseInputs] using h1
        · intro s c hmem
          rcases List.mem_cons.mp hmem with heq | hm
          · simp at heq
          · simpa [traverseInputs] using h2 s c hm
      | some m0 =>
        have hestack : ∀ e ∈ n0 :: stack, Relation.TransGen U.Edge e m0 := by
          intro e he
          rcases List.mem_cons.mp he with h1 | h1
          · subst h1
            exact Relation.TransGen.single (hedge s0 m0 (List.mem_cons_self _ _))
          · exact Relation.TransGen.tail (hstack e h1)
              (hedge s0 m0 (List.mem_cons_self _ _))
        obtain ⟨hc1, hm1⟩ := hnode m0 vis (n0 :: stack)
          (hrank s0 m0 (List.mem_cons_self _ _)) hc hestack
        have hedge' : ∀ s c, (s, some c) ∈ rest → U.Edge n0 c :=
          fun s c h => hedge s c (List.mem_cons_of_mem _ h)
        have hrank' : ∀ s c, (s, some c) ∈ rest → rank c < f + 1 :=
          fun s c h => hrank s c (List.mem_cons_of_mem _ h)
        obtain ⟨h1, h2⟩ := ih (traverseNode U (f + 1) m0 vis) stack hedge' hrank' hc1 hstack
        constructor
        · simpa [traverseInputs] using h1
        · intro s c hmem
          rcases List.mem_cons.mp hmem with heq | hm
          · have hceq : c = m0 := by
              have := congrArg Prod.snd heq
              simpa using this
            subst hceq
            obtain ⟨ext, hext⟩ := (traverse_append U (f + 1)).2 rest (traverseNode U (f + 1) c vis)
            have : c ∈ traverseInputs U (f + 1) rest (traverseNode U (f + 1) c vis) := by
              rw [hext]
              exact List.mem_append.mpr (Or.inl hm1)
            simpa [traverseInputs] using this
          · simpa [traverseInputs] using h2 s c hm

theorem visitOrder_fold (U : NodeUniverse) (rank : Nat → Nat) (hA : Acyclic U rank)
    (fuel : Nat) :
    ∀ (sinks : List Nat) (vis : List Nat),
      (∀ s ∈ sinks, rank s < fuel) →
      ClosedExcept U vis [] → vis.Nodup →
      ClosedExcept U (sinks.foldl (fun v s => traverseNode U fuel s v) vis) [] ∧
      (sinks.foldl (fun v s => traverseNode U fuel s v) vis).Nodup ∧
      (∀ s ∈ sinks, s ∈ sinks.foldl (fun v s => traverseNode U fuel s v) vis) ∧
      (∀ m ∈ sinks.foldl (fun v s => traverseNode U fuel s v) vis,
        m ∈ vis ∨ ∃ s ∈ sinks, U.Reach s m) ∧
      (∃ ext, sinks.foldl (fun v s => traverseNode U fuel s v) vis = vis ++ ext) := by
  intro sinks
  induction sinks with
  | nil =>
    intro vis _ hc hn
    exact ⟨hc, hn, by simp, fun m hm => Or.inl hm, ⟨[], by simp⟩⟩
  | cons s0 rest ih =>
    intro vis hrank hc hn
    have hr0 : rank s0 < fuel := hrank s0 (List.mem_cons_self _ _)
    obtain ⟨hc1, hmem1⟩ := (traverse_closed U rank hA fuel).1 s0 vis []
      hr0 hc (by intro e he; exact absurd he (List.not_mem_nil _))
    have hn1 : (traverseNode U fuel s0 vis).Nodup := (traverse_nodup U fuel).1 s0 vis hn
    have hrank' : ∀ s ∈ rest, rank s < fuel :=
      fun s h => hrank s (List.mem_cons_of_mem _ h)
    obtain ⟨hc2, hn2, hsinks2, hsound2, hext2⟩ :=
      ih (traverseNode U fuel s0 vis) hrank' hc1 hn1
    refine ⟨by simpa using hc2, by simpa using hn2, ?_, ?_, ?_⟩
    · intro s hs
      rcases List.mem_cons.mp hs with h1 | h1
      · subst h1
        obtain ⟨ext, hext⟩ := hext2
        simp only [List.foldl_cons]
        rw [hext]
        exact List.mem_append.mpr (Or.inl hmem1)
      · simpa using hsinks2 s h1
    · intro m hm
      rcases hsound2 m (by simpa using hm) with h1 | ⟨s, hs, hr⟩
      · rcases (traverse_sound U fuel).1 s0 vis m h1 with h2 | h2
        · exact Or.inl h2
        · exact Or.inr ⟨s0, List.mem_cons_self _ _, h2⟩
      · exact Or.inr ⟨s, List.mem_cons_of_mem _ hs, hr⟩
    · obtain ⟨e1, h1⟩ := (traverse_append U fuel).1 s0 vis
      obtain ⟨e2, h2⟩ := hext2
      refine ⟨e1 ++ e2, ?_⟩
      simp only [List.foldl_cons]
      rw [h2, h1, List.append_assoc]

theorem mem_visitOrder_iff (U : NodeUniverse) (rank : Nat → Nat) (hA : Acyclic U rank)
    (fuel : Nat) (sinks : List Nat) (hfuel : ∀ s ∈ sinks, rank s < fuel) :
    ∀ m, m ∈ visitOrder U fuel sinks ↔ ∃ s ∈ sinks, U.Reach s m := by
  obtain ⟨hc, hn, hsk, hsound, _⟩ := visitOrder_fold U rank hA fuel sinks []
    hfuel (fun n hn => absurd hn (List.not_mem_nil _)) List.nodup_nil
  intro m
  constructor
  · intro hm
    rcases hsound m hm with h1 | h1
    · exact absurd h1 (List.not_mem_nil _)
    · exact h1
  · rintro ⟨s, hs, hr⟩
    exact closed_reach_mem hc hr (hsk s hs)

/-- A concrete diamond graph for witnesses: two sinks 0 and 1 share the
upstream node 2, which has one reactive input 3 and one non-reactive
input; node 3 has no inputs. -/
def U0 : NodeUniverse :=
  ⟨fun _ => "Node",
   fun n =>
     match n with
     | 0 => [("a", some 2)]
     | 1 => [("b", some 2), ("raw", none)]
     | 2 => [("c", some 3)]
     | _ => []⟩

def rank0 : Nat → Nat :=
  fun n => if n = 0 then 3 else if n = 1 then 3 else if n = 2 then 2 else if n = 3 then 1 else 0

theorem acyclic_U0 : Acyclic U0 rank0 := by
  intro n s p h
  rcases n with _ | _ | _ | n
  · simp [U0] at h
    obtain ⟨-, rfl⟩ := h
    decide
  · simp [U0] at h
    obtain ⟨-, rfl⟩ := h
    decide
  · simp [U0] at h
    obtain ⟨-, rfl⟩ := h
    decide
  · simp [U0] at h

/-- C7: `buildGraph` visits each distinct node object exactly once
(memoized by identity): the visitation order is duplicate-free, its
members are exactly the nodes transitively reachable from the sinks
through declared reactive inputs, the returned entries are in bijection
with the visited nodes (one NodeInfo per distinct node, with distinct
generated ids), and every entry records, for each input name, the
producer's node when it is a ReactiveNode (which then has its own shared
entry in the map) and null otherwise. -/
theorem buildGraph_covers (U : NodeUniverse) (rank : Nat → Nat) (fuel : Nat)
    (sinks : List Nat) (hA : Acyclic U rank) (hfuel : ∀ s ∈ sinks, rank s < fuel) :
    (visitOrder U fuel sinks).Nodup ∧
    (∀ m, m ∈ visitOrder U fuel sinks ↔ ∃ s ∈ sinks, U.Reach s m) ∧
    (buildGraph U fuel sinks).map NodeInfo.node = visitOrder U fuel sinks ∧
    (buildGraph U fuel sinks).map NodeInfo.id =
      List.range (visitOrder U fuel sinks).length ∧
    (∀ info ∈ buildGraph U fuel sinks,
      info.inputs = U.inputs info.node ∧
      ∀ s p, (s, some p) ∈ info.inputs →
        ∃ j ∈ buildGraph U fuel sinks, j.node = p) := by
  obtain ⟨hc, hn, hsk, hsound, _⟩ := visitOrder_fold U rank hA fuel sinks []
    hfuel (fun n h => absurd h (List.not_mem_nil _)) List.nodup_nil
  have hmem := mem_visitOrder_iff U rank hA fuel sinks hfuel
  have hproj : (buildGraph U fuel sinks).map NodeInfo.node = visitOrder U fuel sinks := by
    simp only [buildGraph, List.map_map]
    have : (NodeInfo.node ∘ fun p : Nat × Nat =>
        NodeInfo.mk p.1 (U.name p.2) p.2 (U.inputs p.2) (depthMap U fuel sinks p.2)) =
        Prod.snd := by
      funext p
      rfl
    rw [this, List.enum_map_snd]
  refine ⟨hn, hmem, hproj, ?_, ?_⟩
  · simp only [buildGraph, List.map_map]
    have : (NodeInfo.id ∘ fun p : Nat × Nat =>
        NodeInfo.mk p.1 (U.name p.2) p.2 (U.inputs p.2) (depthMap U fuel sinks p.2)) =
        Prod.fst := by
      funext p
      rfl
    rw [this, List.enum_map_fst]
  · intro info hinfo
    simp only [buildGraph, List.mem_map] at hinfo
    obtain ⟨p, hp, hpe⟩ := hinfo
    have hnode : info.node = p.2 := by rw [← hpe]
    have hinputs : info.inputs = U.inputs p.2 := by rw [← hpe]
    refine ⟨by rw [hinputs, hnode], ?_⟩
    intro s q hq
    have hpmem : p.2 ∈ visitOrder U fuel sinks := by
      rw [← List.enum_map_snd (visitOrder U fuel sinks)]
      exact List.mem_map_of_mem Prod.snd hp
    have hqmem : q ∈ visitOrder U fuel sinks := by
      rw [hinputs] at hq
      exact hc p.2 hpmem (List.not_mem_nil _) s q hq
    rw [← hproj] at hqmem
    obtain ⟨j, hj, hje⟩ := List.mem_map.mp hqmem
    exact ⟨j, hj, hje⟩

theorem buildGraph_covers_witness :
    Acyclic U0 rank0 ∧
    ((visitOrder U0 4 [0, 1]).Nodup ∧
    (∀ m, m ∈ visitOrder U0 4 [0, 1] ↔ ∃ s ∈ [0, 1], U0.Reach s m) ∧
    (buildGraph U0 4 [0, 1]).map NodeInfo.node = visitOrder U0 4 [0, 1] ∧
    (buildGraph U0 4 [0, 1]).map NodeInfo.id =
      List.range (visitOrder U0 4 [0, 1]).length ∧
    (∀ info ∈ buildGraph U0 4 [0, 1],
      info.inputs = U0.inputs info.node ∧
      ∀ s p, (s, some p) ∈ info.inputs →
        ∃ j ∈ buildGraph U0 4 [0, 1], j.node = p)) :=
  ⟨acyclic_U0, buildGraph_covers U0 rank0 4 [0, 1] acyclic_U0 (by decide)⟩

theorem computeDepth_mono (U : NodeUniverse) :
    ∀ fuel : Nat,
      (∀ n dep d m, d m ≤ computeDepth U fuel n dep d m) ∧
      (∀ n0 l d m, d m ≤ computeDepthInputs U fuel n0 l d m) := by
  intro fuel
  induction fuel with
  | zero =>
    have hnode : ∀ (n dep : Nat) (d : Nat → Nat) (m : Nat),
        d m ≤ computeDepth U 0 n dep d m := by
      intro n dep d m
      simp [computeDepth]
    refine ⟨hnode, ?_⟩
    intro n0 l
    induction l with
    | nil => intro d m; simp [computeDepthInputs]
    | cons hd rest ih =>
      intro d m
      obtain ⟨s, op⟩ := hd
      cases op with
      | none => simpa [computeDepthInputs] using ih d m
      | some m0 =>
        calc d m ≤ computeDepth U 0 m0 (d n0 + 1) d m := hnode m0 (d n0 + 1) d m
          _ ≤ computeDepthInputs U 0 n0 rest (computeDepth U 0 m0 (d n0 + 1) d) m :=
            ih (computeDepth U 0 m0 (d n0 + 1) d) m
          _ = computeDepthInputs U 0 n0 ((s, some m0) :: rest) d m := by
            simp [computeDepthInputs]
  | succ f ihf =>
    have hnode : ∀ (n dep : Nat) (d : Nat → Nat) (m : Nat),
        d m ≤ computeDepth U (f + 1) n dep d m := by
      intro n dep d m
      have h1 : d m ≤ (if dep > d n then depthUpdate d n dep else d) m := by
        by_cases hgt : dep > d n
        · simp only [hgt, if_pos]
          by_cases hm : m = n
          · subst hm
            simp [depthUpdate]
            omega
          · simp [depthUpdate, hm]
        · simp [hgt]
      calc d m ≤ (if dep > d n then depthUpdate d n dep else d) m := h1
        _ ≤ computeDepthInputs U f n (U.inputs n)
              (if dep > d n then depthUpdate d n dep else d) m := ihf.2 _ _ _ _
        _ = computeDepth U (f + 1) n dep d m := by simp [computeDepth]
    refine ⟨hnode, ?_⟩
    intro n0 l
    induction l with
    | nil => intro d m; simp [computeDepthInputs]
    | cons hd rest ih =>
      intro d m
      obtain ⟨s, op⟩ := hd
      cases op with
      | none => simpa [computeDepthInputs] using ih d m
      | some m0 =>
        calc d m ≤ computeDepth U (f + 1) m0 (d n0 + 1) d m := hnode m0 (d n0 + 1) d m
          _ ≤ computeDepthInputs U (f + 1) n0 rest (computeDepth U (f + 1) m0 (d n0 + 1) d) m :=
            ih (computeDepth U (f + 1) m0 (d n0 + 1) d) m
          _ = computeDepthInputs U (f + 1) n0 ((s, some m0) :: rest) d m := by
            simp [computeDepthInputs]

theorem computeDepth_path (U : NodeUniverse) :
    ∀ fuel : Nat,
      (∀ n dep d k m, U.PathLen n m k → k < fuel →
        dep + k ≤ computeDepth U fuel n dep d m) ∧
      (∀ n0 l d s c k m, (s, some c) ∈ l → U.PathLen c m k → k < fuel →
        d n0 + 1 + k ≤ computeDepthInputs U fuel n0 l d m) := by
  intro fuel
  induction fuel with
  | zero =>
    constructor
    · intro n dep d k m _ hk
      exact absurd hk (Nat.not_lt_zero _)
    · intro n0 l d s c k m _ _ hk
      exact absurd hk (Nat.not_lt_zero _)
  | succ f ihf =>
    have hnode : ∀ n dep d k m, U.PathLen n m k → k < f + 1 →
        dep + k ≤ computeDepth U (f + 1) n dep d m := by
      intro n dep d k m hpath hk
      have hd1 : dep ≤ (if dep > d n then depthUpdate d n dep else d) n := by
        by_cases hgt : dep > d n
        · simp [hgt, depthUpdate]
        · simp [hgt]
          omega
      cases k with
      | zero =>
        have hm : m = n := pathLen_zero hpath
        subst hm
        have := (computeDepth_mono U f).2 m (U.inputs m)
          (if dep > d m then depthUpdate d m dep else d) m
        simp only [computeDepth]
        omega
      | succ j =>
        obtain ⟨c, ⟨s, hs⟩, hcp⟩ := pathLen_head hpath (Nat.succ_pos j)
        have hcp' : U.PathLen c m j := by simpa using hcp
        have hj : j < f := by omega
        have := ihf.2 n (U.inputs n) (if dep > d n then depthUpdate d n dep else d)
          s c j m hs hcp' hj
        simp only [computeDepth]
        omega
    refine ⟨hnode, ?_⟩
    intro n0 l
    induction l with
    | nil =>
      intro d s c k m hmem
      exact absurd hmem (List.not_mem_nil _)
    | cons hd rest ih =>
      intro d s c k m hmem hpath hk
      obtain ⟨s0, op⟩ := hd
      cases op with
      | none =>
        have hm' : (s, some c) ∈ rest := by
          rcases List.mem_cons.mp hmem with heq | h
          · simp at heq
          · exact h
        simpa [computeDepthInputs] using ih d s c k m hm' hpath hk
      | some m0 =>
        rcases List.mem_cons.mp hmem with heq | hmr
        · have hc0 : c = m0 := by
            have := congrArg Prod.snd heq
            simpa using this
          subst hc0
          have h1 : d n0 + 1 + k ≤ computeDepth U (f + 1) c (d n0 + 1) d m := by
            have := hnode c (d n0 + 1) d k m hpath hk
            omega
          have h2 := (computeDepth_mono U (f + 1)).2 n0 rest (computeDepth U (f + 1) c (d n0 + 1) d) m
          simp only [computeDepthInputs]
          omega
        · have hle : d n0 ≤ computeDepth U (f + 1) m0 (d n0 + 1) d n0 :=
            (computeDepth_mono U (f + 1)).1 m0 (d n0 + 1) d n0
          have := ih (computeDepth U (f + 1) m0 (d n0 + 1) d) s c k m hmr hpath hk
          simp only [computeDepthInputs]
          omega

/-- A depth value is realizable at a node when some sink has a path of
exactly that length down to the node. -/
def RealDepth (U : NodeUniverse) (sinks : List Nat) (m v : Nat) : Prop :=
  ∃ s ∈ sinks, U.PathLen s m v

theorem computeDepth_sound (U : NodeUniverse) (sinks : List Nat) :
    ∀ fuel : Nat,
      (∀ n dep d, RealDepth U sinks n dep →
        (∀ m, d m = 0 ∨ RealDepth U sinks m (d m)) →
        ∀ m, computeDepth U fuel n dep d m = 0 ∨
          RealDepth U sinks m (computeDepth U fuel n dep d m)) ∧
      (∀ n0 l d, RealDepth U sinks n0 (d n0) →
        (∀ s c, (s, some c) ∈ l → U.Edge n0 c) →
        (∀ m, d m = 0 ∨ RealDepth U sinks m (d m)) →
        ∀ m, computeDepthInputs U fuel n0 l d m = 0 ∨
          RealDepth U sinks m (computeDepthInputs U fuel n0 l d m)) := by
  intro fuel
  induction fuel with
  | zero =>
    constructor
    · intro n dep d _ hinv m
      simpa [computeDepth] using hinv m
    · intro n0 l d _ _ hinv m
      have hz : ∀ (l' : List (String × Option Nat)) (d' : Nat → Nat),
          computeDepthInputs U 0 n0 l' d' = d' := by
        intro l'
        induction l' with
        | nil => intro d'; simp [computeDepthInputs]
        | cons hd rest ih =>
          intro d'
          obtain ⟨s, op⟩ := hd
          cases op with
          | none => simpa [computeDepthInputs] using ih d'
          | some m0 => simpa [computeDepthInputs, computeDepth] using ih d'
      rw [hz l d]
      exact hinv m
  | succ f ihf =>
    have hnode : ∀ n dep d, RealDepth U sinks n dep →
        (∀ m, d m = 0 ∨ RealDepth U sinks m (d m)) →
        ∀ m, computeDepth U (f + 1) n dep d m = 0 ∨
          RealDepth U sinks m (computeDepth U (f + 1) n dep d m) := by
      intro n dep d hreal hinv m
      have hinv1 : ∀ m, (if dep > d n then depthUpdate d n dep else d) m = 0 ∨
          RealDepth U sinks m ((if dep > d n then depthUpdate d n dep else d) m) := by
        intro m'
        by_cases hgt : dep > d n
        · by_cases hm : m' = n
          · subst hm
            simp [hgt, depthUpdate]
            exact Or.inr hreal
          · simpa [hgt, depthUpdate, hm] using hinv m'
        · simpa [hgt] using hinv m'
      have hreal1 : RealDepth U sinks n ((if dep > d n then depthUpdate d n dep else d) n) := by
        by_cases hgt : dep > d n
        · simpa [hgt, depthUpdate] using hreal
        · have : dep = d n ∨ dep < d n := by omega
          rcases hinv n with h0 | h1
          · have : dep = 0 := by omega
            subst this
            simpa [hgt, h0] using hreal
          · simpa [hgt] using h1
      have hedge : ∀ s c, (s, some c) ∈ U.inputs n → U.Edge n c := fun s c h => ⟨s, h⟩
      have := ihf.2 n (U.inputs n) (if dep > d n then depthUpdate d n dep else d)
        hreal1 hedge hinv1 m
      simpa [computeDepth] using this
    refine ⟨hnode, ?_⟩
    intro n0 l
    induction l with
    | nil =>
      intro d _ _ hinv m
      simpa [computeDepthInputs] using hinv m
    | cons hd rest ih =>
      intro d hreal hedge hinv m
      obtain ⟨s0, op⟩ := hd
      cases op with
      | none =>
        have hedge' : ∀ s c, (s, some c) ∈ rest → U.Edge n0 c :=
          fun s c h => hedge s c (List.mem_cons_of_mem _ h)
        simpa [computeDepthInputs] using ih d hreal hedge' hinv m
      | some m0 =>
        have hrm0 : RealDepth U sinks m0 (d n0 + 1) := by
          obtain ⟨s, hs, hp⟩ := hreal
          exact ⟨s, hs, .tail hp (hedge s0 m0 (List.mem_cons_self _ _))⟩
        have hinv' := hnode m0 (d n0 + 1) d hrm0 hinv
        have hreal' : RealDepth U sinks n0 (computeDepth U (f + 1) m0 (d n0 + 1) d n0) := by
          rcases hinv' n0 with h0 | h1
          · have hle := (computeDepth_mono U (f + 1)).1 m0 (d n0 + 1) d n0
            have hd0 : d n0 = 0 := by omega
            rw [h0]
            rw [hd0] at hreal
            exact hreal
          · exact h1
        have hedge' : ∀ s c, (s, some c) ∈ rest → U.Edge n0 c :=
          fun s c h => hedge s c (List.mem_cons_of_mem _ h)
        have := ih (computeDepth U (f + 1) m0 (d n0 + 1) d) hreal' hedge' hinv' m
        simpa [computeDepthInputs] using this

theorem depthFold_mono (U : NodeUniverse) (fuel : Nat) :
    ∀ (sinks : List Nat) (d : Nat → Nat) (m : Nat),
      d m ≤ (sinks.foldl (fun d s => computeDepth U fuel s 0 d) d) m := by
  intro sinks
  induction sinks with
  | nil => intro d m; simp
  | cons s0 rest ih =>
    intro d m
    calc d m ≤ computeDepth U fuel s0 0 d m := (computeDepth_mono U fuel).1 s0 0 d m
      _ ≤ (rest.foldl (fun d s => computeDepth U fuel s 0 d) (computeDepth U fuel s0 0 d)) m :=
        ih (computeDepth U fuel s0 0 d) m
      _ = ((s0 :: rest).foldl (fun d s => computeDepth U fuel s 0 d) d) m := by
        simp

theorem depthFold_lower (U : NodeUniverse) (fuel : Nat) :
    ∀ (sinks : List Nat) (d : Nat → Nat) (s m k : Nat),
      s ∈ sinks → U.PathLen s m k → k < fuel →
      k ≤ (sinks.foldl (fun d s => computeDepth U fuel s 0 d) d) m := by
  intro sinks
  induction sinks with
  | nil =>
    intro d s m k hs
    exact absurd hs (List.not_mem_nil _)
  | cons s0 rest ih =>
    intro d s m k hs hpath hk
    rcases List.mem_cons.mp hs with h1 | h1
    · subst h1
      have h2 := (computeDepth_path U fuel).1 s 0 d k m hpath hk
      have h3 := depthFold_mono U fuel rest (computeDepth U fuel s 0 d) m
      simp only [List.foldl_cons]
      omega
    · have := ih (computeDepth U fuel s0 0 d) s m k h1 hpath hk
      simpa using this

theorem depthMap_sound (U : NodeUniverse) (fuel : Nat) (sinks : List Nat) :
    ∀ m, depthMap U fuel sinks m = 0 ∨
      RealDepth U sinks m (depthMap U fuel sinks m) := by
  have main : ∀ (rest : List Nat) (d : Nat → Nat),
      (∀ s ∈ rest, s ∈ sinks) →
      (∀ m, d m = 0 ∨ RealDepth U sinks m (d m)) →
      ∀ m, (rest.foldl (fun d s => computeDepth U fuel s 0 d) d) m = 0 ∨
        RealDepth U sinks m ((rest.foldl (fun d s => computeDepth U fuel s 0 d) d) m) := by
    intro rest
    induction rest with
    | nil => intro d _ hinv m; simpa using hinv m
    | cons s0 rest ih =>
      intro d hmem hinv m
      have hs0 : s0 ∈ sinks := hmem s0 (List.mem_cons_self _ _)
      have hreal : RealDepth U sinks s0 0 := ⟨s0, hs0, .refl s0⟩
      have hinv' := (computeDepth_sound U sinks fuel).1 s0 0 d hreal hinv
      have := ih (computeDepth U fuel s0 0 d) (fun s h => hmem s (List.mem_cons_of_mem _ h))
        hinv' m
      simpa using this
  exact main sinks (fun _ => 0) (fun s h => h) (fun m => Or.inl rfl)

/-- C8: for an acyclic graph, the depth recorded in each built NodeInfo
equals the maximum, over all paths from any sink node to that node along
declared reactive inputs, of the path length: some sink attains the
recorded depth by a path, and no path from any sink is longer. -/
theorem buildGraph_depth (U : NodeUniverse) (rank : Nat → Nat) (fuel : Nat)
    (sinks : List Nat) (hA : Acyclic U rank) (hfuel : ∀ s ∈ sinks, rank s < fuel) :
    ∀ info ∈ buildGraph U fuel sinks,
      (∃ s ∈ sinks, U.PathLen s info.node info.depth) ∧
      (∀ s ∈ sinks, ∀ k, U.PathLen s info.node k → k ≤ info.depth) := by
  intro info hinfo
  simp only [buildGraph, List.mem_map] at hinfo
  obtain ⟨p, hp, hpe⟩ := hinfo
  have hnode : info.node = p.2 := by rw [← hpe]
  have hdepth : info.depth = depthMap U fuel sinks p.2 := by rw [← hpe]
  have hpmem : p.2 ∈ visitOrder U fuel sinks := by
    rw [← List.enum_map_snd (visitOrder U fuel sinks)]
    exact List.mem_map_of_mem Prod.snd hp
  have hupper : ∀ s ∈ sinks, ∀ k, U.PathLen s p.2 k → k ≤ depthMap U fuel sinks p.2 := by
    intro s hs k hpath
    have hkr : k ≤ rank s := pathLen_le_rank hA hpath
    have hkf : k < fuel := lt_of_le_of_lt hkr (hfuel s hs)
    exact depthFold_lower U fuel sinks (fun _ => 0) s p.2 k hs hpath hkf
  constructor
  · rcases depthMap_sound U fuel sinks p.2 with h0 | h1
    · obtain ⟨s, hs, hr⟩ := (mem_visitOrder_iff U rank hA fuel sinks hfuel p.2).mp hpmem
      obtain ⟨k, hk⟩ := reach_iff_pathLen.mp hr
      have : k ≤ depthMap U fuel sinks p.2 := hupper s hs k hk
      rw [h0] at this
      have hk0 : k = 0 := by omega
      subst hk0
      rw [hnode, hdepth, h0]
      exact ⟨s, hs, hk⟩
    · rw [hnode, hdepth]
      exact h1
  · intro s hs k hpath
    rw [hnode] at hpath
    rw [hdepth]
    exact hupper s hs k hpath

theorem buildGraph_depth_witness :
    Acyclic U0 rank0 ∧
    (∀ info ∈ buildGraph U0 4 [0, 1],
      (∃ s ∈ [0, 1], U0.PathLen s info.node info.depth) ∧
      (∀ s ∈ [0, 1], ∀ k, U0.PathLen s info.node k → k ≤ info.depth)) :=
  ⟨acyclic_U0, buildGraph_depth U0 rank0 4 [0, 1] acyclic_U0 (by decide)⟩

/-! ## ReactiveNode: combineLatest + switchMap + shareReplay(1) -/

/-- The result of one `process(context, named)` invocation
(node.ts, the switchMap projection): a plain value is wrapped with `of`
and emitted synchronously; a Promise (`from`) or nested Observable
becomes the active inner source whose emissions arrive later in the
event trace, tagged with the generation that started them; a synchronous
throw errors the outer stream. -/
inductive PResult (O E : Type) where
  | val : O → PResult O E
  | async : PResult O E
  | throws : E → PResult O E
deriving DecidableEq

/-- State of one ReactiveNode pipeline
`combineLatest(observables).pipe(switchMap(...), shareReplay(1))`.
`connected` is whether shareReplay currently holds a subscription to the
source (it connects on the first subscriber and, with the default
`refCount: false`, never disconnects on unsubscription); `latest` is
combineLatest's last value per input; `gen` counts process invocations
(the switchMap generation); `innerAsync` is whether the current
generation's inner source is still external (promise or nested stream);
`buf` is the ReplaySubject(1) buffer together with the generation that
produced it; `done` records completion (combineLatest of an empty input
array completes immediately); `subs` are the attached subscriber ids;
`procLog` records every snapshot `process` was invoked with. -/
structure RState (k : Nat) (V O E : Type) where
  connected : Bool
  latest : Fin k → Option V
  gen : Nat
  innerAsync : Bool
  buf : Option (O × Nat)
  done : Bool
  subs : List Nat
  procLog : List (Fin k → V)

/-- Events of the single-threaded event loop driving one node. -/
inductive REvent (k : Nat) (V O E : Type) where
  | subscribe : Nat → REvent k V O E
  | unsubscribe : Nat → REvent k V O E
  | inEmit : Fin k → V → REvent k V O E
  | innerNext : Nat → O → REvent k V O E
  | innerError : Nat → E → REvent k V O E
deriving DecidableEq

/-- A notification delivered to one subscriber.  Next notifications also
carry the generation (process invocation) that produced the value; this
instrumentation, mirrored from `buf`, is what lets staleness be stated. -/
inductive RMsg (O E : Type) where
  | next : Nat → O → Nat → RMsg O E
  | error : Nat → E → RMsg O E
  | complete : Nat → RMsg O E
deriving DecidableEq

def RState.init {k : Nat} {V O E : Type} : RState k V O E :=
  ⟨false, fun _ => none, 0, false, none, false, [], []⟩

/-- combineLatest stores the newest value of input `i`. -/
def updLatest {k : Nat} {V : Type} (f : Fin k → Option V) (i : Fin k) (v : V) :
    Fin k → Option V :=
  fun j => if j = i then some v else f j

/-- combineLatest emits only once every input has emitted at least once. -/
def allSomeB {k : Nat} {V : Type} (f : Fin k → Option V) : Bool :=
  (List.finRange k).all fun j => (f j).isSome

/-- The named snapshot `Object.fromEntries(keys.map((k, i) => [k, values[i]]))`
passed to `process` (total once `allSomeB` holds). -/
def snap {k : Nat} {V : Type} [Inhabited V] (f : Fin k → Option V) : Fin k → V :=
  fun j => (f j).getD default

/-- shareReplay (rxjs 7, `resetOnError: true`): when the source errors,
the error is forwarded to the current subscribers, whose subscriptions
terminate, and the shared state resets — the connection, the
ReplaySubject buffer and the combineLatest state are discarded, so a
later subscriber re-connects the source afresh. -/
def RState.resetShare {k : Nat} {V O E : Type} (st : RState k V O E) : RState k V O E :=
  { st with
    connected := false
    latest := fun _ => none
    innerAsync := false
    buf := none
    subs := [] }

/-- One step of the node pipeline on one event. -/
def RState.step {k : Nat} {V O E : Type} [Inhabited V]
    (proc : (Fin k → V) → PResult O E) (st : RState k V O E) :
    REvent k V O E → RState k V O E × List (RMsg O E)
  | .subscribe s =>
    if st.done then
      -- completed ReplaySubject (resetOnComplete: false): replay, then complete
      (st, (match st.buf with
        | some (o, g) => [RMsg.next s o g]
        | none => []) ++ [RMsg.complete s])
    else if st.connected then
      -- already connected: join the subject, replaying the buffered value
      ({ st with subs := st.subs ++ [s] },
       match st.buf with
       | some (o, g) => [RMsg.next s o g]
       | none => [])
    else
      -- first subscriber (also first after an error reset) connects the source;
      -- combineLatest of an empty inputs array completes immediately
      if k = 0 then
        ({ st with connected := true, done := true, subs := [] }, [RMsg.complete s])
      else
        ({ st with connected := true, subs := st.subs ++ [s] },
         match st.buf with
         | some (o, g) => [RMsg.next s o g]
         | none => [])
  | .unsubscribe s => ({ st with subs := st.subs.erase s }, [])
  | .inEmit i v =>
    if st.connected && !st.done then
      let lat := updLatest st.latest i v
      if allSomeB lat then
        -- combineLatest emits the full named snapshot; switchMap unsubscribes
        -- the previous inner source and invokes process exactly once
        let σ := snap lat
        let g := st.gen + 1
        match proc σ with
        | .val o =>
          ({ st with
              latest := lat
              gen := g
              innerAsync := false
              buf := some (o, g)
              procLog := st.procLog ++ [σ] },
           st.subs.map fun s => RMsg.next s o g)
        | .async =>
          ({ st with
              latest := lat
              gen := g
              innerAsync := true
              procLog := st.procLog ++ [σ] }, [])
        | .throws e =>
          ({ st.resetShare with gen := g, procLog := st.procLog ++ [σ] },
           st.subs.map fun s => RMsg.error s e)
      else
        ({ st with latest := lat }, [])
    else (st, [])
  | .innerNext g v =>
    if st.connected && !st.done && st.innerAsync && g == st.gen then
      ({ st with buf := some (v, g) }, st.subs.map fun s => RMsg.next s v g)
    else
      -- a stale inner source was unsubscribed by switchMap: nothing is delivered
      (st, [])
  | .innerError g e =>
    if st.connected && !st.done && st.innerAsync && g == st.gen then
      (st.resetShare, st.subs.map fun s => RMsg.error s e)
    else (st, [])

/-- Run a trace of events, collecting all notifications in order. -/
def RState.run {k : Nat} {V O E : Type} [Inhabited V]
    (proc : (Fin k → V) → PResult O E) (st : RState k V O E) :
    List (REvent k V O E) → RState k V O E × List (RMsg O E)
  | [] => (st, [])
  | e :: es =>
    let p := st.step proc e
    let q := p.1.run proc es
    (q.1, p.2 ++ q.2)

/-- Does an event emit on input `i`? -/
def emitsTo {k : Nat} {V O E : Type} (i : Fin k) : REvent k V O E → Bool
  | .inEmit j _ => j = i
  | _ => false

theorem allSomeB_false_of_none {k : Nat} {V : Type} {f : Fin k → Option V} {i : Fin k}
    (h : f i = none) : allSomeB f = false := by
  by_contra hcon
  have htrue : allSomeB f = true := by
    cases hx : allSomeB f
    · exact absurd hx hcon
    · rfl
  have := (List.all_eq_true.mp htrue) i (List.mem_finRange i)
  rw [h] at this
  simp at this

theorem updLatest_ne {k : Nat} {V : Type} (f : Fin k → Option V) {i j : Fin k} (v : V)
    (h : j ≠ i) : updLatest f i v j = f j := by
  simp [updLatest, h]

/-- Any run whose trace never emits on input `i` (still unset) invokes
`process` not at all: the combined stream is still waiting for `i`. -/
theorem run_no_emit_procLog {k : Nat} {V O E : Type} [Inhabited V]
    (proc : (Fin k → V) → PResult O E) (i : Fin k) :
    ∀ (tr : List (REvent k V O E)) (st : RState k V O E),
      st.latest i = none →
      tr.all (fun e => !emitsTo i e) = true →
      (st.run proc tr).1.procLog = st.procLog ∧ (st.run proc tr).1.latest i = none := by
  intro tr
  induction tr with
  | nil => intro st h _; exact ⟨rfl, h⟩
  | cons e es ih =>
    intro st hnone hall
    simp only [List.all_cons, Bool.and_eq_true] at hall
    have hall' : es.all (fun e => !emitsTo i e) = true := hall.2
    have he : emitsTo i e = false := by
      have := hall.1
      simpa using this
    have step1 : ((st.step proc e).1.procLog = st.procLog ∧
        (st.step proc e).1.latest i = none) := by
      cases e with
      | subscribe s =>
        by_cases hd : st.done
        · simp [RState.step, hd, hnone]
        · by_cases hc : st.connected
          · simp [RState.step, hd, hc, hnone]
          · by_cases hk : k = 0
            · simp [RState.step, hd, hc, hk, hnone]
            · simp [RState.step, hd, hc, hk, hnone]
      | unsubscribe s => simp [RState.step, hnone]
      | inEmit j v =>
        have hji : j ≠ i := by
          simp [emitsTo] at he
          exact fun h => he (by rw [h])
        by_cases hcd : st.connected && !st.done
        · have hlat : updLatest st.latest j v i = none := by
            rw [updLatest_ne st.latest v (fun h => hji h.symm)]
            exact hnone
          have hfa : allSomeB (updLatest st.latest j v) = false :=
            allSomeB_false_of_none hlat
          simp [RState.step, hcd, hfa, hlat]
        · simp [RState.step, hcd, hnone]
      | innerNext g v =>
        by_cases hcd : st.connected && !st.done && st.innerAsync && g == st.gen
        · simp [RState.step, hcd, hnone]
        · simp [RState.step, hcd, hnone]
      | innerError g e =>
        by_cases hcd : st.connected && !st.done && st.innerAsync && g == st.gen
        · simp [RState.step, hcd, RState.resetShare, hnone]
        · simp [RState.step, hcd, hnone]
    have := ih (st.step proc e).1 step1.2 hall'
    simp only [RState.run]
    exact ⟨by rw [this.1, step1.1], this.2⟩

/-- C2: process is invoked only on a complete snapshot.  An input
emission invokes `process` exactly once — with the full updated named
snapshot — precisely when the shared source is connected, not completed,
and every input (including this one) has a latest value; otherwise, and
on every non-input event (subscriptions, unsubscriptions, inner
results), `process` is not invoked; and a run whose trace never emits on
some input never invokes `process` at all. -/
theorem reactiveNode_process_snapshot {k : Nat} {V O E : Type} [Inhabited V]
    (proc : (Fin k → V) → PResult O E) (st : RState k V O E) :
    (∀ i v, (st.step proc (.inEmit i v)).1.procLog =
      (if st.connected && !st.done && allSomeB (updLatest st.latest i v)
       then st.procLog ++ [snap (updLatest st.latest i v)]
       else st.procLog)) ∧
    (∀ s, (st.step proc (.subscribe s)).1.procLog = st.procLog) ∧
    (∀ s, (st.step proc (.unsubscribe s)).1.procLog = st.procLog) ∧
    (∀ g v, (st.step proc (.innerNext g v)).1.procLog = st.procLog) ∧
    (∀ g e, (st.step proc (.innerError g e)).1.procLog = st.procLog) ∧
    (∀ (i : Fin k) (tr : List (REvent k V O E)),
      st.latest i = none → tr.all (fun e => !emitsTo i e) = true →
      (st.run proc tr).1.procLog = st.procLog) := by
  refine ⟨?_, ?_, ?_, ?_, ?_, ?_⟩
  · intro i v
    by_cases hcd : st.connected && !st.done
    · by_cases ha : allSomeB (updLatest st.latest i v)
      · cases hp : proc (snap (updLatest st.latest i v)) with
        | val o => simp [RState.step, hcd, ha, hp]
        | async => simp [RState.step, hcd, ha, hp]
        | throws e => simp [RState.step, hcd, ha, hp, RState.resetShare]
      · simp [RState.step, hcd, ha]
    · have : (st.connected && !st.done && allSomeB (updLatest st.latest i v)) = false := by
        cases hx : (st.connected && !st.done)
        · simp
        · exact absurd hx (by simpa using hcd)
      simp [RState.step, hcd, this]
  · intro s
    by_cases hd : st.done
    · simp [RState.step, hd]
    · by_cases hc : st.connected
      · simp [RState.step, hd, hc]
      · by_cases hk : k = 0
        · simp [RState.step, hd, hc, hk]
        · simp [RState.step, hd, hc, hk]
  · intro s
    simp [RState.step]
  · intro g v
    by_cases hcd : st.connected && !st.done && st.innerAsync && g == st.gen
    · simp [RState.step, hcd]
    · simp [RState.step, hcd]
  · intro g e
    by_cases hcd : st.connected && !st.done && st.innerAsync && g == st.gen
    · simp [RState.step, hcd, RState.resetShare]
    · simp [RState.step, hcd]
  · intro i tr hnone hall
    exact (run_no_emit_procLog proc i tr st hnone hall).1

/-- A concrete node with two inputs for the witnesses: process sums the
snapshot synchronously. -/
def proc2 : (Fin 2 → Nat) → PResult Nat Nat :=
  fun σ => .val (σ 0 + σ 1)

/-- A connected two-input node that has seen input 0 (value 4) but not
yet input 1, with subscriber 7 attached. -/
def st1 : RState 2 Nat Nat Nat :=
  ⟨true, fun j => if j = 0 then some 4 else none, 0, false, none, false, [7], []⟩

theorem reactiveNode_process_snapshot_witness :
    ((st1.step proc2 (.inEmit 1 5)).1.procLog =
      (if st1.connected && !st1.done && allSomeB (updLatest st1.latest 1 5)
       then st1.procLog ++ [snap (updLatest st1.latest 1 5)]
       else st1.procLog)) ∧
    ((st1.step proc2 (.subscribe 9)).1.procLog = st1.procLog) ∧
    (st1.latest 1 = none ∧
      (st1.run proc2 [.subscribe 9, .inEmit 0 6, .innerNext 1 3]).1.procLog = st1.procLog) :=
  ⟨(reactiveNode_process_snapshot proc2 st1).1 1 5,
   (reactiveNode_process_snapshot proc2 st1).2.1 9,
   by decide,
   (reactiveNode_process_snapshot proc2 st1).2.2.2.2.2 1
     [.subscribe 9, .inEmit 0 6, .innerNext 1 3] (by decide) (by decide)⟩

/-- The generations of the value notifications of a message list, in
delivery order. -/
def nextTags {O E : Type} : List (RMsg O E) → List Nat
  | [] => []
  | .next _ _ g :: ms => g :: nextTags ms
  | .error _ _ :: ms => nextTags ms
  | .complete _ :: ms => nextTags ms

theorem nextTags_append {O E : Type} (l₁ l₂ : List (RMsg O E)) :
    nextTags (l₁ ++ l₂) = nextTags l₁ ++ nextTags l₂ := by
  induction l₁ with
  | nil => rfl
  | cons m ms ih =>
    cases m with
    | next s o g => simp [nextTags, ih]
    | error s e => simp [nextTags, ih]
    | complete s => simp [nextTags, ih]

theorem nextTags_map_next {O E : Type} (l : List Nat) (o : O) (g : Nat) :
    nextTags (l.map fun s => (RMsg.next s o g : RMsg O E)) = List.replicate l.length g := by
  induction l with
  | nil => rfl
  | cons s rest ih => simp [nextTags, ih, List.replicate_succ]

theorem nextTags_map_error {O E : Type} (l : List Nat) (e : E) :
    nextTags (l.map fun s => (RMsg.error s e : RMsg O E)) = [] := by
  induction l with
  | nil => rfl
  | cons s rest ih => simp [nextTags, ih]

theorem pairwise_le_replicate (n g : Nat) :
    (List.replicate n g).Pairwise (· ≤ ·) := by
  induction n with
  | zero => simp
  | succ m ih =>
    rw [List.replicate_succ]
    refine List.Pairwise.cons ?_ ih
    intro b hb
    rw [List.eq_of_mem_replicate hb]


/-- The tag of the newest value the node has produced: the buffered
value's generation, or the current generation when nothing is buffered.
Every notification a step delivers carries exactly this tag, and it
never decreases — which is the no-stale-emission property. -/
def bound {k : Nat} {V O E : Type} (st : RState k V O E) : Nat :=
  match st.buf with
  | some (_, g) => g
  | none => st.gen

theorem bound_le_gen_step {k : Nat} {V O E : Type} [Inhabited V]
    (proc : (Fin k → V) → PResult O E) (st : RState k V O E) (e : REvent k V O E)
    (h : bound st ≤ st.gen) :
    bound (st.step proc e).1 ≤ (st.step proc e).1.gen := by
  cases e with
  | subscribe s =>
    simp only [RState.step]
    split
    · exact h
    · split
      · exact h
      · split
        · simpa [bound] using h
        · simpa [bound] using h
  | unsubscribe s => simpa [bound] using h
  | inEmit i v =>
    simp only [RState.step]
    split
    · split
      · split
        · cases hb : st.buf <;> simp [bound, hb]
        · cases hb : st.buf <;> simp [bound, hb] at h ⊢ <;> omega
        · cases hb : st.buf <;> simp [bound, RState.resetShare, hb]
      · simpa [bound] using h
    · exact h
  | innerNext g v =>
    simp only [RState.step]
    split
    · rename_i hguard
      have hg : g = st.gen := by
        simp only [Bool.and_eq_true, beq_iff_eq] at hguard
        exact hguard.2
      subst hg
      simp [bound]
    · exact h
  | innerError g e =>
    simp only [RState.step]
    split
    · simp [bound, RState.resetShare]
    · exact h

theorem bound_mono_step {k : Nat} {V O E : Type} [Inhabited V]
    (proc : (Fin k → V) → PResult O E) (st : RState k V O E) (e : REvent k V O E)
    (h : bound st ≤ st.gen) :
    bound st ≤ bound (st.step proc e).1 := by
  cases e with
  | subscribe s =>
    simp only [RState.step]
    split
    · exact le_refl _
    · split
      · exact le_refl _
      · split
        · simp [bound]
        · simp [bound]
  | unsubscribe s => cases hb : st.buf <;> simp [RState.step, bound, hb]
  | inEmit i v =>
    simp only [RState.step]
    split
    · split
      · split
        · cases hb : st.buf <;> simp [bound, hb] at h ⊢ <;> omega
        · cases hb : st.buf <;> simp [bound, hb] at h ⊢ <;> omega
        · cases hb : st.buf <;> simp [bound, RState.resetShare, hb] at h ⊢ <;> omega
      · simp [bound]
    · exact le_refl _
  | innerNext g v =>
    simp only [RState.step]
    split
    · rename_i hguard
      have hg : g = st.gen := by
        simp only [Bool.and_eq_true, beq_iff_eq] at hguard
        exact hguard.2
      subst hg
      cases hb : st.buf <;> simp [bound, hb] at h ⊢ <;> omega
    · exact le_refl _
  | innerError g e =>
    simp only [RState.step]
    split
    · cases hb : st.buf <;> simp [bound, RState.resetShare, hb] at h ⊢ <;> omega
    · exact le_refl _

theorem step_tags_eq_bound {k : Nat} {V O E : Type} [Inhabited V]
    (proc : (Fin k → V) → PResult O E) (st : RState k V O E) (e : REvent k V O E) :
    ∀ t ∈ nextTags (st.step proc e).2, t = bound (st.step proc e).1 := by
  cases e with
  | subscribe s =>
    simp only [RState.step]
    split
    · cases hb : st.buf with
      | none => simp [nextTags]
      | some p =>
        obtain ⟨o, g⟩ := p
        intro t ht
        simp [nextTags] at ht
        simp [bound, hb, ht]
    · split
      · cases hb : st.buf with
        | none => simp [nextTags]
        | some p =>
          obtain ⟨o, g⟩ := p
          intro t ht
          simp [nextTags] at ht
          simp [bound, hb, ht]
      · split
        · simp [nextTags]
        · cases hb : st.buf with
          | none => simp [nextTags]
          | some p =>
            obtain ⟨o, g⟩ := p
            intro t ht
            simp [nextTags] at ht
            simp [bound, hb, ht]
  | unsubscribe s => simp [nextTags]
  | inEmit i v =>
    simp only [RState.step]
    split
    · split
      · split
        · intro t ht
          rw [nextTags_map_next] at ht
          rw [List.eq_of_mem_replicate ht]
          simp [bound]
        · simp [nextTags]
        · intro t ht
          rw [nextTags_map_error] at ht
          exact absurd ht (List.not_mem_nil _)
      · simp [nextTags]
    · simp [nextTags]
  | innerNext g v =>
    simp only [RState.step]
    split
    · intro t ht
      rw [nextTags_map_next] at ht
      rw [List.eq_of_mem_replicate ht]
      simp [bound]
    · simp [nextTags]
  | innerError g e =>
    simp only [RState.step]
    split
    · intro t ht
      rw [nextTags_map_error] at ht
      exact absurd ht (List.not_mem_nil _)
    · simp [nextTags]

theorem pairwise_le_of_all_eq {l : List Nat} {c : Nat} (h : ∀ t ∈ l, t = c) :
    l.Pairwise (· ≤ ·) := by
  induction l with
  | nil => simp
  | cons hd rest ih =>
    refine List.Pairwise.cons ?_ (ih fun t ht => h t (List.mem_cons_of_mem _ ht))
    intro b hb
    rw [h hd (List.mem_cons_self _ _), h b (List.mem_cons_of_mem _ hb)]

theorem tags_sorted_run {k : Nat} {V O E : Type} [Inhabited V]
    (proc : (Fin k → V) → PResult O E) :
    ∀ (tr : List (REvent k V O E)) (st : RState k V O E) (tags : List Nat),
      tags.Pairwise (· ≤ ·) → (∀ t ∈ tags, t ≤ bound st) → bound st ≤ st.gen →
      (tags ++ nextTags (st.run proc tr).2).Pairwise (· ≤ ·) ∧
      (∀ t ∈ tags ++ nextTags (st.run proc tr).2, t ≤ bound (st.run proc tr).1) ∧
      bound (st.run proc tr).1 ≤ (st.run proc tr).1.gen := by
  intro tr
  induction tr with
  | nil =>
    intro st tags hs hb hg
    simp only [RState.run, nextTags, List.append_nil]
    exact ⟨hs, hb, hg⟩
  | cons e es ih =>
    intro st tags hs hb hg
    have hmono := bound_mono_step proc st e hg
    have hgen := bound_le_gen_step proc st e hg
    have htag := step_tags_eq_bound proc st e
    have hs' : (tags ++ nextTags (st.step proc e).2).Pairwise (· ≤ ·) := by
      rw [List.pairwise_append]
      refine ⟨hs, pairwise_le_of_all_eq htag, ?_⟩
      intro a ha b hbm
      rw [htag b hbm]
      exact le_trans (hb a ha) hmono
    have hb' : ∀ t ∈ tags ++ nextTags (st.step proc e).2, t ≤ bound (st.step proc e).1 := by
      intro t ht
      rcases List.mem_append.mp ht with h1 | h1
      · exact le_trans (hb t h1) hmono
      · rw [htag t h1]
    have := ih (st.step proc e).1 (tags ++ nextTags (st.step proc e).2) hs' hb' hgen
    simp only [RState.run, nextTags_append, ← List.append_assoc]
    exact this

/-- C1: stale asynchronous results are never emitted.  A resolution of a
generation other than the current one (switchMap has already
unsubscribed that inner source) changes nothing and delivers nothing;
consequently, over any run from the initial state, the generations of
the delivered values are non-decreasing in delivery order: once a
result of a fresher snapshot has been observed, no result of an older
snapshot is ever observed, by any subscriber. -/
theorem reactiveNode_no_stale {k : Nat} {V O E : Type} [Inhabited V]
    (proc : (Fin k → V) → PResult O E) :
    (∀ (st : RState k V O E) (g : Nat) (v : O), g ≠ st.gen →
      st.step proc (.innerNext g v) = (st, [])) ∧
    (∀ tr : List (REvent k V O E),
      (nextTags ((RState.init (k := k)).run proc tr).2).Pairwise (· ≤ ·)) := by
  constructor
  · intro st g v hne
    have : (st.connected && !st.done && st.innerAsync && g == st.gen) = false := by
      have : (g == st.gen) = false := by
        simpa using hne
      simp [this]
    simp [RState.step, this]
  · intro tr
    have h0 : bound (RState.init : RState k V O E) ≤ (RState.init : RState k V O E).gen := by
      simp [bound, RState.init]
    have := tags_sorted_run proc tr RState.init [] (by simp) (by simp) h0
    simpa using this.1

/-- A one-input node whose process result is always asynchronous. -/
def procAsync : (Fin 1 → Nat) → PResult Nat Nat := fun _ => .async

/-- A one-input node mid-flight: generation 2's promise is pending
(snapshot 11 arrived before generation 1's promise resolved). -/
def st2 : RState 1 Nat Nat Nat :=
  ⟨true, fun _ => some 11, 2, true, none, false, [1], [fun _ => 10, fun _ => 11]⟩

theorem reactiveNode_no_stale_witness :
    (1 ≠ st2.gen ∧ st2.step procAsync (.innerNext 1 100) = (st2, [])) ∧
    (nextTags ((RState.init : RState 1 Nat Nat Nat).run procAsync
      [.subscribe 1, .inEmit 0 10, .inEmit 0 11, .innerNext 1 100,
       .innerNext 2 200, .subscribe 3]).2).Pairwise (· ≤ ·) :=
  ⟨⟨by decide, (reactiveNode_no_stale procAsync).1 st2 1 100 (by decide)⟩,
   (reactiveNode_no_stale procAsync).2
     [.subscribe 1, .inEmit 0 10, .inEmit 0 11, .innerNext 1 100,
      .innerNext 2 200, .subscribe 3]⟩

/-- C5: a node that has already produced an output replays it.  With a
value buffered by shareReplay(1), each new subscriber immediately
receives exactly the most recent output upon subscribing; subscribing
twice delivers the same most-recent value to both subscribers; process
is not re-invoked (the process log and generation are unchanged). -/
theorem reactiveNode_replay {k : Nat} {V O E : Type} [Inhabited V]
    (proc : (Fin k → V) → PResult O E) (st : RState k V O E) (o : O) (g : Nat)
    (hc : st.connected = true) (hd : st.done = false) (hb : st.buf = some (o, g))
    (s1 s2 : Nat) :
    st.step proc (.subscribe s1) =
      ({ st with subs := st.subs ++ [s1] }, [.next s1 o g]) ∧
    (st.run proc [.subscribe s1, .subscribe s2]).2 =
      [.next s1 o g, .next s2 o g] ∧
    (st.run proc [.subscribe s1, .subscribe s2]).1.procLog = st.procLog ∧
    (st.run proc [.subscribe s1, .subscribe s2]).1.gen = st.gen := by
  refine ⟨?_, ?_, ?_, ?_⟩ <;> simp [RState.step, RState.run, hc, hd, hb]

/-- A one-input node that has computed output 22 for generation 2. -/
def st3 : RState 1 Nat Nat Nat :=
  ⟨true, fun _ => some 11, 2, false, some (22, 2), false, [1], [fun _ => 11]⟩

theorem reactiveNode_replay_witness :
    (st3.connected = true ∧ st3.buf = some (22, 2)) ∧
    st3.step procAsync (.subscribe 5) =
      ({ st3 with subs := st3.subs ++ [5] }, [.next 5 22 2]) ∧
    (st3.run procAsync [.subscribe 5, .subscribe 6]).2 =
      [.next 5 22 2, .next 6 22 2] ∧
    (st3.run procAsync [.subscribe 5, .subscribe 6]).1.procLog = st3.procLog ∧
    (st3.run procAsync [.subscribe 5, .subscribe 6]).1.gen = st3.gen :=
  ⟨⟨rfl, rfl⟩, reactiveNode_replay procAsync st3 22 2 rfl rfl rfl 5 6⟩

theorem run_zero_inputs {V O E : Type} [Inhabited V]
    (proc : (Fin 0 → V) → PResult O E) :
    ∀ (tr : List (REvent 0 V O E)) (st : RState 0 V O E),
      st.innerAsync = false → st.buf = none →
      ((st.run proc tr).1.procLog = st.procLog ∧
       nextTags (st.run proc tr).2 = []) := by
  intro tr
  induction tr with
  | nil => intro st _ _; exact ⟨rfl, rfl⟩
  | cons e es ih =>
    intro st hia hb
    have hstep : (st.step proc e).1.procLog = st.procLog ∧
        nextTags (st.step proc e).2 = [] ∧
        (st.step proc e).1.innerAsync = false ∧ (st.step proc e).1.buf = none := by
      cases e with
      | subscribe s =>
        by_cases hd : st.done
        · simp [RState.step, hd, hb, hia, nextTags]
        · by_cases hc : st.connected
          · simp [RState.step, hd, hc, hb, hia, nextTags]
          · simp [RState.step, hd, hc, hb, hia, nextTags]
      | unsubscribe s => simp [RState.step, hb, hia, nextTags]
      | inEmit i v => exact i.elim0
      | innerNext g v => simp [RState.step, hia, hb, nextTags]
      | innerError g e => simp [RState.step, hia, hb, nextTags]
    have := ih (st.step proc e).1 hstep.2.2.1 hstep.2.2.2
    refine ⟨?_, ?_⟩
    · simp only [RState.run]
      rw [this.1, hstep.1]
    · simp only [RState.run, nextTags_append]
      rw [this.2, hstep.2.1]
      rfl

/-- C10: a ReactiveNode with an empty inputs record never invokes
process and completes immediately upon subscription without emitting a
value: combineLatest of an empty array completes at once, the first
subscriber connects and receives only a completion, every later
subscriber receives only the (replayed) completion, and no run from the
initial state ever logs a process invocation or delivers a value. -/
theorem reactiveNode_empty_inputs {V O E : Type} [Inhabited V]
    (proc : (Fin 0 → V) → PResult O E) :
    (∀ s, (RState.init : RState 0 V O E).step proc (.subscribe s) =
      ({ (RState.init : RState 0 V O E) with connected := true, done := true },
       [.complete s])) ∧
    (∀ (st : RState 0 V O E) (s : Nat), st.done = true → st.buf = none →
      st.step proc (.subscribe s) = (st, [.complete s])) ∧
    (∀ tr : List (REvent 0 V O E),
      ((RState.init : RState 0 V O E).run proc tr).1.procLog = [] ∧
      nextTags ((RState.init : RState 0 V O E).run proc tr).2 = []) := by
  refine ⟨?_, ?_, ?_⟩
  · intro s
    simp [RState.step, RState.init]
  · intro st s hd hb
    simp [RState.step, hd, hb, nextTags]
  · intro tr
    exact run_zero_inputs proc tr RState.init rfl rfl

theorem reactiveNode_empty_inputs_witness :
    ((RState.init : RState 0 Nat Nat Nat).step (fun _ => PResult.val 9) (.subscribe 1) =
      ({ (RState.init : RState 0 Nat Nat Nat) with connected := true, done := true },
       [.complete 1])) ∧
    (((RState.init : RState 0 Nat Nat Nat).run (fun _ => PResult.val 9)
        [.subscribe 1, .subscribe 2]).1.procLog = [] ∧
      nextTags ((RState.init : RState 0 Nat Nat Nat).run (fun _ => PResult.val 9)
        [.subscribe 1, .subscribe 2]).2 = []) :=
  ⟨(reactiveNode_empty_inputs (fun _ => PResult.val 9)).1 1,
   (reactiveNode_empty_inputs (fun _ => PResult.val 9)).2.2 [.subscribe 1, .subscribe 2]⟩

/-- Subscriber-only events: they join or leave the shared subject but do
not drive the computation. -/
def isSubEvent {k : Nat} {V O E : Type} : REvent k V O E → Bool
  | .subscribe _ => true
  | .unsubscribe _ => true
  | _ => false

def isInnerError {k : Nat} {V O E : Type} : REvent k V O E → Bool
  | .innerError _ _ => true
  | _ => false

/-- Two pipeline states agree on everything except the attached
subscriber list. -/
def coreEq {k : Nat} {V O E : Type} (a b : RState k V O E) : Prop :=
  a.connected = b.connected ∧ a.latest = b.latest ∧ a.gen = b.gen ∧
  a.innerAsync = b.innerAsync ∧ a.done = b.done ∧ a.buf = b.buf ∧
  a.procLog = b.procLog

theorem step_sub_core {k : Nat} {V O E : Type} [Inhabited V]
    (proc : (Fin k → V) → PResult O E) (a : RState k V O E)
    (hconn : a.connected = true) (e : REvent k V O E) (hsub : isSubEvent e = true) :
    coreEq (a.step proc e).1 a ∧ (a.step proc e).1.connected = true := by
  cases e with
  | subscribe s =>
    by_cases hd : a.done
    · simp [RState.step, hd, coreEq, hconn]
    · simp [RState.step, hd, hconn, coreEq]
  | unsubscribe s => simp [RState.step, coreEq, hconn]
  | inEmit i v => simp [isSubEvent] at hsub
  | innerNext g v => simp [isSubEvent] at hsub
  | innerError g e => simp [isSubEvent] at hsub

theorem step_core {k : Nat} {V O E : Type} [Inhabited V]
    (proc : (Fin k → V) → PResult O E)
    (hthrow : ∀ σ e, proc σ ≠ PResult.throws e)
    (a b : RState k V O E) (hcore : coreEq a b) (hconn : a.connected = true)
    (e : REvent k V O E) (hne : isInnerError e = false) :
    coreEq (a.step proc e).1 (b.step proc e).1 ∧ (a.step proc e).1.connected = true := by
  obtain ⟨h1, h2, h3, h4, h5, h6, h7⟩ := hcore
  have hcb : b.connected = true := by rw [← h1]; exact hconn
  cases e with
  | subscribe s =>
    by_cases hd : a.done
    · have hd' : b.done = true := by rw [← h5]; exact hd
      refine ⟨?_, ?_⟩ <;>
        simp [RState.step, hd, hd', coreEq, h1, h2, h3, h4, h5, h6, h7, hconn, hcb]
    · have hd' : b.done = false := by rw [← h5]; simpa using hd
      have hc' : b.connected = true := by rw [← h1]; exact hconn
      refine ⟨?_, ?_⟩ <;>
        simp [RState.step, hd, hd', hconn, hc', coreEq, h1, h2, h3, h4, h5, h6, h7, hconn, hcb]
  | unsubscribe s =>
    refine ⟨?_, ?_⟩ <;> simp [RState.step, coreEq, h1, h2, h3, h4, h5, h6, h7, hconn, hcb]
  | inEmit i v =>
    by_cases hd : a.done
    · have hd' : b.done = true := by rw [← h5]; exact hd
      refine ⟨?_, ?_⟩ <;>
        simp [RState.step, hd, hd', hconn, coreEq, h1, h2, h3, h4, h5, h6, h7, hconn, hcb]
    · have hd' : b.done = false := by rw [← h5]; simpa using hd
      have hc' : b.connected = true := by rw [← h1]; exact hconn
      by_cases ha : allSomeB (updLatest a.latest i v)
      · cases hp : proc (snap (updLatest a.latest i v)) with
        | val o =>
          refine ⟨?_, ?_⟩ <;>
            simp [RState.step, hd, hd', hconn, hc', ha, h2 ▸ ha, hp, ← h2, coreEq,
              h1, h3, h4, h5, h6, h7, hconn, hcb]
        | async =>
          refine ⟨?_, ?_⟩ <;>
            simp [RState.step, hd, hd', hconn, hc', ha, hp, ← h2, coreEq,
              h1, h3, h4, h5, h6, h7, hconn, hcb]
        | throws er => exact absurd hp (hthrow _ er)
      · have ha' : allSomeB (updLatest b.latest i v) = false := by
          rw [← h2]
          simpa using ha
        refine ⟨?_, ?_⟩ <;>
          simp [RState.step, hd, hd', hconn, hc', ha, ha', ← h2, coreEq,
            h1, h3, h4, h5, h6, h7, hconn, hcb]
  | innerNext g v =>
    by_cases hg : (a.connected && !a.done && a.innerAsync && g == a.gen) = true
    · have hg' : (b.connected && !b.done && b.innerAsync && g == b.gen) = true := by
        rw [← h1, ← h5, ← h4, ← h3]
        exact hg
      simp only [Bool.and_eq_true, Bool.not_eq_true', beq_iff_eq] at hg hg'
      obtain ⟨⟨⟨hac, had⟩, hai⟩, hag⟩ := hg
      obtain ⟨⟨⟨hbc, hbd⟩, hbi⟩, hbg⟩ := hg'
      refine ⟨?_, ?_⟩ <;>
        simp [RState.step, coreEq, h1, h2, h3, h4, h5, h6, h7, hconn, hcb,
          hac, had, hai, hag, hbc, hbd, hbi, hbg]
    · have hprop : ¬((b.done = false ∧ b.innerAsync = true) ∧ g = b.gen) := by
        intro hcon
        apply hg
        simp only [Bool.and_eq_true, Bool.not_eq_true', beq_iff_eq]
        refine ⟨⟨⟨hconn, ?_⟩, ?_⟩, ?_⟩
        · rw [h5]
          exact hcon.1.1
        · rw [h4]
          exact hcon.1.2
        · rw [h3]
          exact hcon.2
      refine ⟨?_, ?_⟩ <;>
        simp [RState.step, coreEq, h1, h2, h3, h4, h5, h6, h7, hconn, hcb, hprop]
  | innerError g er => simp [isInnerError] at hne

/-- C6: the computation is multicast.  For a connected node (and while
no error occurs — C4 treats errors), the computation-relevant state —
in particular the log of process invocations — evolves identically
whether or not any subscribe/unsubscribe events are interleaved:
removing all subscriber events from a trace leaves the core state,
hence the number and arguments of process invocations, unchanged.
Together with the per-snapshot characterisation (one invocation per
ready input emission), process runs exactly once per distinct input
snapshot, independent of how many subscribers are attached. -/
theorem reactiveNode_multicast {k : Nat} {V O E : Type} [Inhabited V]
    (proc : (Fin k → V) → PResult O E)
    (hthrow : ∀ σ e, proc σ ≠ PResult.throws e) :
    ∀ (tr : List (REvent k V O E)) (a b : RState k V O E),
      coreEq a b → a.connected = true →
      tr.all (fun ev => !isInnerError ev) = true →
      coreEq (a.run proc tr).1 (b.run proc (tr.filter fun ev => !isSubEvent ev)).1 ∧
      (a.run proc tr).1.procLog =
        (b.run proc (tr.filter fun ev => !isSubEvent ev)).1.procLog := by
  intro tr
  induction tr with
  | nil =>
    intro a b hcore hconn _
    exact ⟨hcore, hcore.2.2.2.2.2.2⟩
  | cons e es ih =>
    intro a b hcore hconn hall
    simp only [List.all_cons, Bool.and_eq_true] at hall
    have hne : isInnerError e = false := by simpa using hall.1
    by_cases hsub : isSubEvent e = true
    · have hstep := step_sub_core proc a hconn e hsub
      have hcore' : coreEq (a.step proc e).1 b := by
        obtain ⟨x1, x2, x3, x4, x5, x6, x7⟩ := hstep.1
        obtain ⟨y1, y2, y3, y4, y5, y6, y7⟩ := hcore
        exact ⟨x1.trans y1, x2.trans y2, x3.trans y3, x4.trans y4,
          x5.trans y5, x6.trans y6, x7.trans y7⟩
      have := ih (a.step proc e).1 b hcore' hstep.2 hall.2
      simpa [RState.run, List.filter_cons, hsub] using this
    · have hsub' : isSubEvent e = false := by
        cases hx : isSubEvent e
        · rfl
        · exact absurd hx hsub
      have hstep := step_core proc hthrow a b hcore hconn e hne
      have := ih (a.step proc e).1 (b.step proc e).1 hstep.1 hstep.2 hall.2
      simpa [RState.run, List.filter_cons, hsub'] using this

/-- A connected two-input node (both inputs seen) with one subscriber. -/
def st4 : RState 2 Nat Nat Nat :=
  ⟨true, fun _ => some 3, 1, false, some (6, 1), false, [7], [fun _ => 3]⟩

/-- The same node state with no subscribers attached. -/
def st4b : RState 2 Nat Nat Nat :=
  ⟨true, fun _ => some 3, 1, false, some (6, 1), false, [], [fun _ => 3]⟩

theorem reactiveNode_multicast_witness :
    coreEq st4 st4b ∧
    ((st4.run proc2 [.subscribe 8, .inEmit 0 5, .subscribe 9, .inEmit 1 2,
        .unsubscribe 8]).1.procLog =
      (st4b.run proc2 ([.subscribe 8, .inEmit 0 5, .subscribe 9, .inEmit 1 2,
        .unsubscribe 8].filter fun ev => !isSubEvent ev)).1.procLog) :=
  ⟨⟨rfl, rfl, rfl, rfl, rfl, rfl, rfl⟩,
   (reactiveNode_multicast proc2
      (fun σ e h => by simp [proc2] at h)
      [.subscribe 8, .inEmit 0 5, .subscribe 9, .inEmit 1 2, .unsubscribe 8]
      st4 st4b ⟨rfl, rfl, rfl, rfl, rfl, rfl, rfl⟩ rfl (by decide)).2⟩

/-- A one-input node whose process throws on snapshot 5 and returns a
plain value (six times the input) otherwise. -/
def procThrow : (Fin 1 → Nat) → PResult Nat Nat :=
  fun σ => if σ 0 = 5 then .throws 0 else .val (σ 0 * 6)

/-- Counterexample to C4 as stated.  Subscriber 1 subscribes, input 0
emits 5, process throws: the error reaches subscriber 1 and — because
rxjs 7 shareReplay resets its shared state on error — the connection is
torn down.  Subscriber 2, subscribing afterwards, receives no error at
all (the whole run delivers no notification whatsoever to it at
subscription time); instead it re-connects the source, and the next
input emission re-invokes process (the log grows from one to two
invocations — an engine-level retry) and delivers the fresh value 42 to
subscriber 2.  So the error is neither delivered to later subscribers
nor terminal for the node's output. -/
theorem reactiveNode_error_not_replayed :
    ((RState.init : RState 1 Nat Nat Nat).run procThrow
        [.subscribe 1, .inEmit 0 5, .subscribe 2, .inEmit 0 7]).2 =
      [RMsg.error 1 0, RMsg.next 2 42 2] ∧
    RMsg.error 2 0 ∉ ((RState.init : RState 1 Nat Nat Nat).run procThrow
        [.subscribe 1, .inEmit 0 5, .subscribe 2, .inEmit 0 7]).2 ∧
    ((RState.init : RState 1 Nat Nat Nat).run procThrow
        [.subscribe 1, .inEmit 0 5, .subscribe 2, .inEmit 0 7]).1.procLog.length = 2 := by
  refine ⟨?_, ?_, ?_⟩ <;> decide

/-- C4 as amended: when process throws synchronously or the current
generation's promise/nested stream errors, the error is delivered to
every currently attached subscriber (whose subscriptions terminate) and
the shared pipeline resets (shareReplay resets on error): the
subscriber list, buffer, combineLatest state and connection are
discarded.  A subscriber that subscribes after the reset receives no
error; it re-connects the source afresh (so subsequent input emissions
re-invoke process — retry at the engine level, contrary to the original
claim's fail-fast-forever reading). -/
theorem reactiveNode_error_resets {k : Nat} {V O E : Type} [Inhabited V]
    (proc : (Fin k → V) → PResult O E) (st : RState k V O E) :
    (∀ g e, st.connected = true → st.done = false → st.innerAsync = true →
      g = st.gen →
      st.step proc (.innerError g e) =
        (st.resetShare, st.subs.map fun s => RMsg.error s e)) ∧
    (∀ i v e, st.connected = true → st.done = false →
      allSomeB (updLatest st.latest i v) = true →
      proc (snap (updLatest st.latest i v)) = .throws e →
      st.step proc (.inEmit i v) =
        ({ st.resetShare with
            gen := st.gen + 1
            procLog := st.procLog ++ [snap (updLatest st.latest i v)] },
         st.subs.map fun s => RMsg.error s e)) ∧
    (∀ s, st.connected = false → st.done = false → st.buf = none → k ≠ 0 →
      st.step proc (.subscribe s) =
        ({ st with connected := true, subs := st.subs ++ [s] }, [])) := by
  refine ⟨?_, ?_, ?_⟩
  · intro g e hc hd hia hg
    subst hg
    simp [RState.step, hc, hd, hia]
  · intro i v e hc hd ha hp
    simp [RState.step, hc, hd, ha, hp]
  · intro s hc hd hb hk
    simp [RState.step, hc, hd, hb, hk]

/-- A one-input node awaiting generation 2's promise, with subscribers 1
and 4 attached. -/
def st5 : RState 1 Nat Nat Nat :=
  ⟨true, fun _ => some 11, 2, true, none, false, [1, 4], [fun _ => 10, fun _ => 11]⟩

theorem reactiveNode_error_resets_witness :
    (st5.connected = true ∧ st5.innerAsync = true ∧ 2 = st5.gen) ∧
    st5.step procAsync (.innerError 2 33) =
      (st5.resetShare, [RMsg.error 1 33, RMsg.error 4 33]) ∧
    st5.resetShare.step procAsync (.subscribe 9) =
      ({ st5.resetShare with connected := true, subs := [9] }, []) :=
  ⟨⟨rfl, rfl, rfl⟩,
   by
    have h := (reactiveNode_error_resets procAsync st5).1 2 33 rfl rfl rfl rfl
    simpa using h,
   by
    have h := (reactiveNode_error_resets procAsync st5.resetShare).2.2 9 rfl rfl rfl
      (by decide)
    simpa [RState.resetShare] using h⟩
